import Mathlib

/-!
Verification development for the coreth atomic-sync subsystem, the multicoin
StateDB wrappers, the precompile dispatcher and the RulesExtra nil-receiver
methods.

The atomic syncer, atomic trie and shared-memory applier implementations are
not part of the provided sources (only their test harness,
`src/unnamed/part_001`, is); those components are modelled from the
specification (spec.md sections 4.1, 4.2, 4.3 and 8) as explicitly noted on
each definition.  The StateDB wrappers are translated from
`src/core/state/statedb.go`, the precompile dispatcher from
`src/core/vm/contracts.go`, and the RulesExtra methods from
`src/unnamed/part_000`.
-/

/-- A leaf of the atomic trie.  The serialized key is a fixed-width big-endian
height prefix followed by the source chain ID and inner key (spec section 3);
`height` models the 8-byte prefix and `sub` folds the remaining key bytes.
`value` is the opaque serialized operation batch. -/
structure Leaf where
  height : Nat
  sub : Nat
  value : Nat
deriving DecidableEq, Repr

/-- One entry of the durable commit-height table: a commit height paired with
the trie root persisted at that height.  Because the trie root is a content
hash over the full key/value set (spec section 3, "Trie root"), a root is
modelled injectively as the height-ordered list of leaves it commits to. -/
abbrev Commit := Nat × List Leaf

/-- Height of the last entry of the commit-height table, `0` when the table is
empty (genesis).  Modelled from the spec: the atomic trie's `LastCommitted`
lookup used by the syncer's resume step (spec section 4.2 step 1). -/
def lastH : List Commit → Nat
  | [] => 0
  | [c] => c.1
  | _ :: c :: cs => lastH (c :: cs)

/-- Root stored at the last entry of the commit-height table, the empty
(genesis) trie when the table is empty.  Modelled from the spec, as for
`lastH`. -/
def lastRoot : List Commit → List Leaf
  | [] => []
  | [c] => c.2
  | _ :: c :: cs => lastRoot (c :: cs)

/-- Modelled from the spec: `rootAt(height)` "returns the persisted root at
the nearest commit height ≤ height" (spec section 4.1). -/
def rootAt (cs : List Commit) (h : Nat) : Option (List Leaf) :=
  ((cs.filter (fun c => decide (c.1 ≤ h))).getLast?).map (fun c => c.2)

/-- In-progress state of one sync session: the open trie's leaves in reverse
insertion order, the leaves fetched so far in this session, the next commit
boundary, the durable commit table, and the intercepting leaf counter of the
test harness (`numLeaves` in `testAtomicSyncer`, src/unnamed/part_001). -/
structure SyncSt where
  revLeaves : List Leaf
  fetched : List Leaf
  nextCommit : Nat
  commits : List Commit
  counter : Nat
deriving DecidableEq, Repr

/-- Modelled from the spec: when a leaf's implied height crosses one or more
commit-height boundaries, the syncer commits the accumulated interval at each
crossed boundary and advances the checkpoint (spec section 4.2 step 4, spec
section 4.1 `commit`).  `fuel` bounds the number of crossed boundaries; callers
pass `h + 1`, which suffices whenever the interval is positive. -/
def advanceCommits (interval h : Nat) : Nat → SyncSt → SyncSt
  | 0, st => st
  | fuel+1, st =>
      if st.nextCommit < h then
        advanceCommits interval h fuel
          { st with commits := st.commits ++ [(st.nextCommit, st.revLeaves.reverse)],
                    nextCommit := st.nextCommit + interval }
      else st

/-- Modelled from the spec: on a verified leaf, first commit any crossed
interval, then write the leaf into the local trie's uncommitted layer (spec
section 4.2 step 4). -/
def processLeaf (interval : Nat) (st : SyncSt) (l : Leaf) : SyncSt :=
  let st1 := advanceCommits interval l.height (l.height + 1) st
  { st1 with revLeaves := l :: st1.revLeaves }

/-- Modelled from the spec: process the leaves of one verified response in
ascending key order (spec section 4.2 step 4). -/
def processList (interval : Nat) : SyncSt → List Leaf → SyncSt
  | st, [] => st
  | st, l :: ls => processList interval (processLeaf interval st l) ls

/-- The intercepting leaf counter of the test harness: a response that would
push the running count past the cutoff is replaced by an error, otherwise the
count grows by the response size (src/unnamed/part_001 lines 78-87; the final
count-only intercept of lines 107-111 is the `none` case). -/
def interceptOk (cutoff : Option Nat) (counter n : Nat) : Bool :=
  match cutoff with
  | none => true
  | some c => decide (counter + n ≤ c)

/-- Modelled from the spec: the syncer's fetch loop.  Each round requests the
next `reqSize` leaves after the cursor (spec section 4.2 step 2); the mock
client's intercept either passes the response through (counting its leaves) or
fails the session (spec section 4.2 step 5); on success the leaves are written
and the cursor advances past them.  `fuel` bounds the number of rounds; the
caller passes one more than the number of pending leaves. -/
def runBatches (interval : Nat) (cutoff : Option Nat) (reqSize : Nat) :
    Nat → List Leaf → SyncSt → SyncSt × Bool
  | 0, _, st => (st, false)
  | _+1, [], st => (st, true)
  | fuel+1, p :: ps, st =>
      let batch := (p :: ps).take reqSize
      if interceptOk cutoff st.counter batch.length then
        runBatches interval cutoff reqSize fuel ((p :: ps).drop reqSize)
          (processList interval
            { st with counter := st.counter + batch.length,
                      fetched := st.fetched ++ batch } batch)
      else (st, false)

/-- Modelled from the spec: `acceptForeignTrie(height, root)` registers the
fully synced trie as canonical for the target height, recording it in the
append-only commit table when the target height is a commit height (spec
sections 4.1 and 4.2 step 6; the table is "append-only, monotonically
increasing", spec section 3). -/
def acceptAt (interval targetHeight : Nat) (root : List Leaf) (cs : List Commit) :
    List Commit :=
  if targetHeight % interval = 0 ∧ lastH cs < targetHeight then cs ++ [(targetHeight, root)]
  else cs

/-- Observable outcome of one sync session: the durable commit table, the
accumulated intercept counter, the leaves fetched during this session, and
whether the session succeeded. -/
structure AttemptResult where
  commits : List Commit
  counter : Nat
  fetched : List Leaf
  ok : Bool
deriving DecidableEq, Repr

/-- Modelled from the spec: one full sync session against target root `tgt`
(roots are modelled as leaf lists, so the target root is the target's leaf
list).  Resume anchors at the last durably committed commit height, re-fetching
everything above it (spec section 4.2 steps 1-2 and section 4.2 edge cases);
leaves arrive in `reqSize` rounds through the intercept; on exhausting the key
space the locally built root is compared with the target root and, on match,
accepted at the target height (spec section 4.2 step 6). -/
def runAttempt (interval reqSize : Nat) (cutoff : Option Nat) (tgt : List Leaf)
    (targetHeight : Nat) (commits0 : List Commit) (counter0 : Nat) : AttemptResult :=
  let base := lastH commits0
  let pending := tgt.filter (fun l => decide (base < l.height))
  let st0 : SyncSt := ⟨(lastRoot commits0).reverse, [], base + interval, commits0, counter0⟩
  let res := runBatches interval cutoff reqSize (pending.length + 1) pending st0
  if res.2 then
    if res.1.revLeaves.reverse = tgt then
      ⟨acceptAt interval targetHeight res.1.revLeaves.reverse res.1.commits,
        res.1.counter, res.1.fetched, true⟩
    else ⟨res.1.commits, res.1.counter, res.1.fetched, false⟩
  else ⟨res.1.commits, res.1.counter, res.1.fetched, false⟩

/-- The leaf stored at height `h` in the generated test tries: `FillTrie`
writes one leaf per height with the height as big-endian key prefix
(`syncutils.GenerateTrie`, used by src/unnamed/part_001 lines 139, 197). -/
def leafAt (h : Nat) : Leaf := ⟨h, 0, h⟩

/-- The `m` consecutive test leaves at heights `a+1 .. a+m`. -/
def seg (a : Nat) : Nat → List Leaf
  | 0 => []
  | m+1 => leafAt (a + 1) :: seg (a + 1) m

/-- The generated server trie with one leaf per height `1 .. n`
(src/unnamed/part_001: `GenerateTrie` with `numTrieKeys` keys). -/
def dense (n : Nat) : List Leaf := seg 0 n

/-- The commit-table segment with `c` entries at heights
`h, h+K, h+2K, ...`, each mapping to the dense root at its height. -/
def tableSeg (K h : Nat) : Nat → List Commit
  | 0 => []
  | c+1 => (h, dense h) :: tableSeg K (h + K) c

/-- State of the shared-memory applier: the durable apply cursor ("the highest
height whose operations have been applied to the external ledger", spec
section 3) and the external ledger modelled as the log of per-height
applications performed on it. -/
structure ApplierState where
  cursor : Nat
  ledger : List (Nat × Nat)
deriving DecidableEq, Repr

/-- Modelled from the spec: `markCursor(height)` "sets the apply cursor to
`height` without performing application" (spec section 4.3;
`MarkApplyToSharedMemoryCursor` in src/unnamed/part_001 line 186). -/
def markCursor (s : ApplierState) (h : Nat) : ApplierState :=
  { s with cursor := h }

/-- Modelled from the spec: the loop of `applyUpTo` — for each height from
`cursor+1` up, read the committed batch (`ops`) and apply it to the ledger as
one atomic unit, advancing the cursor; stop fatally when the ledger write
fails (`writeOk` false), leaving the cursor at the last successfully applied
height (spec section 4.3).  `fuel` is the number of heights left to apply. -/
def applyLoop (writeOk : Nat → Bool) (ops : Nat → Nat) :
    Nat → ApplierState → ApplierState × Bool
  | 0, s => (s, true)
  | fuel+1, s =>
      if writeOk (s.cursor + 1) then
        applyLoop writeOk ops fuel
          ⟨s.cursor + 1, s.ledger ++ [(s.cursor + 1, ops (s.cursor + 1))]⟩
      else (s, false)

/-- Modelled from the spec: `applyUpTo(targetHeight)` applies heights
`cursor+1` through `targetHeight` in order (spec section 4.3;
`ApplyToSharedMemory` in src/unnamed/part_001 line 188). -/
def applyUpTo (writeOk : Nat → Bool) (ops : Nat → Nat) (s : ApplierState)
    (targetHeight : Nat) : ApplierState × Bool :=
  applyLoop writeOk ops (targetHeight - s.cursor) s

/-- The wrapped go-ethereum StateDB (an external collaborator of
src/core/state/statedb.go): a raw storage map from (account, 32-byte slot key)
to stored word, plus the per-account IsMultiCoin extra flag.  Accounts are
addresses, slot keys are 32-byte strings modelled as byte lists, and stored
256-bit words are naturals below 2^256. -/
structure GethStateDB where
  storage : Nat → List Nat → Nat
  multiCoin : Nat → Bool

/-- Raw `gethstate.StateDB.GetState`: look the slot up unmodified. -/
def GethStateDB.getStateRaw (g : GethStateDB) (addr : Nat) (key : List Nat) : Nat :=
  g.storage addr key

/-- Raw `gethstate.StateDB.SetState`: store at the slot unmodified. -/
def GethStateDB.setStateRaw (g : GethStateDB) (addr : Nat) (key : List Nat)
    (value : Nat) : GethStateDB :=
  { g with storage := fun a k => if a = addr ∧ k = key then value else g.storage a k }

/-- Raw `gethstate.SetExtra` for the IsMultiCoin payload flag. -/
def GethStateDB.setMultiCoin (g : GethStateDB) (addr : Nat) : GethStateDB :=
  { g with multiCoin := fun a => if a = addr then true else g.multiCoin a }

/-- The coreth StateDB wrapper (src/core/state/statedb.go lines 65-75; the tx
context fields are irrelevant to the storage claims and omitted). -/
structure StateDB where
  geth : GethStateDB

/-- `NormalizeCoinID` ORs the 0th bit of the first byte of the 32-byte coinID
(src/core/state/statedb.go lines 180-182). -/
def NormalizeCoinID : List Nat → List Nat
  | [] => []
  | b :: r => (b ||| 1) :: r

/-- `NormalizeStateKey` ANDs the first byte of the 32-byte key with 0xfe,
clearing its 0th bit (src/core/state/statedb.go lines 188-190). -/
def NormalizeStateKey : List Nat → List Nat
  | [] => []
  | b :: r => (b &&& 0xfe) :: r

/-- `StateDB.GetState` (src/core/state/statedb.go lines 112-115): normalize
the state key, then delegate to the wrapped StateDB. -/
def StateDB.GetState (s : StateDB) (addr : Nat) (hash : List Nat) : Nat :=
  s.geth.getStateRaw addr (NormalizeStateKey hash)

/-- `StateDB.SetState` (src/core/state/statedb.go lines 147-150): normalize
the state key, then delegate to the wrapped StateDB. -/
def StateDB.SetState (s : StateDB) (addr : Nat) (key : List Nat) (value : Nat) :
    StateDB :=
  ⟨s.geth.setStateRaw addr (NormalizeStateKey key) value⟩

/-- `StateDB.GetBalanceMultiCoin` (src/core/state/statedb.go lines 106-109):
normalize the coinID, then read the slot through the wrapped StateDB. -/
def StateDB.GetBalanceMultiCoin (s : StateDB) (addr : Nat) (coinID : List Nat) : Nat :=
  s.geth.getStateRaw addr (NormalizeCoinID coinID)

/-- `StateDB.AddBalanceMultiCoin` (src/core/state/statedb.go lines 118-129):
a zero amount only touches the account; otherwise set the IsMultiCoin flag if
unset, add the amount to the multicoin balance and store it at the normalized
coinID slot (`common.BigToHash` truncates the stored word to 256 bits). -/
def StateDB.AddBalanceMultiCoin (s : StateDB) (addr : Nat) (coinID : List Nat)
    (amount : Nat) : StateDB :=
  if amount = 0 then s
  else
    let g1 := if s.geth.multiCoin addr then s.geth else s.geth.setMultiCoin addr
    ⟨g1.setStateRaw addr (NormalizeCoinID coinID)
      ((s.GetBalanceMultiCoin addr coinID + amount) % 2 ^ 256)⟩

/-- `StateDB.SubBalanceMultiCoin` (src/core/state/statedb.go lines 132-145):
a zero amount is a no-op; otherwise set the IsMultiCoin flag if unset,
subtract the amount from the multicoin balance and store it at the normalized
coinID slot (`common.BigToHash` stores the magnitude of the big.Int result,
truncated to 256 bits). -/
def StateDB.SubBalanceMultiCoin (s : StateDB) (addr : Nat) (coinID : List Nat)
    (amount : Nat) : StateDB :=
  if amount = 0 then s
  else
    let g1 := if s.geth.multiCoin addr then s.geth else s.geth.setMultiCoin addr
    ⟨g1.setStateRaw addr (NormalizeCoinID coinID)
      ((((s.GetBalanceMultiCoin addr coinID : Int) - amount).natAbs) % 2 ^ 256)⟩

/-- The EVM error relevant to the precompile dispatcher; `other` stands for
the remaining error values a contract's `Run` may produce
(src/core/vm/contracts.go uses `vmerrs.ErrOutOfGas`). -/
inductive VMError where
  | ErrOutOfGas
  | other (code : Nat)
deriving DecidableEq, Repr

/-- The `PrecompiledContract` interface (src/core/vm/contracts.go lines
52-56): a deterministic gas count over the input, and a run function
returning output bytes and an optional error. -/
structure PrecompiledContract where
  RequiredGas : List Nat → Nat
  Run : List Nat → Option (List Nat) × Option VMError

/-- `RunPrecompiledContract` (src/core/vm/contracts.go lines 270-278): charge
`RequiredGas` up front, failing with `(nil, 0, ErrOutOfGas)` if the supplied
gas is short, otherwise run the contract and return its output and error with
the remaining gas. -/
def RunPrecompiledContract (p : PrecompiledContract) (input : List Nat)
    (suppliedGas : Nat) : Option (List Nat) × Nat × Option VMError :=
  let gasCost := p.RequiredGas input
  if suppliedGas < gasCost then (none, 0, some VMError.ErrOutOfGas)
  else ((p.Run input).1, suppliedGas - gasCost, (p.Run input).2)

/-- A contract permitted by the `PrecompiledContract` interface whose `Run`
itself reports out-of-gas with nil output while charging no gas up front. -/
def oogContract : PrecompiledContract :=
  ⟨fun _ => 0, fun _ => (none, some VMError.ErrOutOfGas)⟩

/-- `RulesExtra` (src/unnamed/part_000 lines 17-35): the per-rule-set
registries, modelled by their key sets; addresses are naturals.  Only the
fields used by the claimed methods are carried. -/
structure RulesExtra where
  Precompiles : List Nat
  Predicaters : List Nat
  AccepterPrecompiles : List Nat

/-- `(*RulesExtra).PredicatersExist` (src/unnamed/part_000 lines 259-265): a
nil receiver (modelled as `none`) returns false, otherwise whether the
Predicaters map is nonempty. -/
def PredicatersExist : Option RulesExtra → Bool
  | none => false
  | some r => decide (0 < r.Predicaters.length)

/-- `(*RulesExtra).PredicaterExists` (src/unnamed/part_000 lines 267-274): a
nil receiver returns false, otherwise whether `addr` is a key of the
Predicaters map. -/
def PredicaterExists (r : Option RulesExtra) (addr : Nat) : Bool :=
  match r with
  | none => false
  | some r => decide (addr ∈ r.Predicaters)

/-- `(*RulesExtra).IsPrecompileEnabled` (src/unnamed/part_000 lines 277-284):
a nil receiver returns false, otherwise whether `addr` is a key of the
Precompiles map. -/
def IsPrecompileEnabled (r : Option RulesExtra) (addr : Nat) : Bool :=
  match r with
  | none => false
  | some r => decide (addr ∈ r.Precompiles)

/-- A well-formed 32-byte string: 32 bytes, each below 256. -/
def Bytes32 (k : List Nat) : Prop :=
  k.length = 32 ∧ ∀ b ∈ k, b < 256

/-- First sync session of the `TestAtomicSyncerResume` scenario
(src/unnamed/part_001 lines 192-207): commit interval 1024, request size
1024 (`defaultStateSyncRequestSize`, modelled from the spec's reference
behavior), server trie with one leaf per height `1 .. 10*1024 - 1`, target
height `10*1024`, responses cut off after `5*1024 - 1` leaves. -/
def c1r1 : AttemptResult :=
  runAttempt 1024 1024 (some (5 * 1024 - 1)) (dense (10 * 1024 - 1)) (10 * 1024) [] 0

/-- Second sync session of the `TestAtomicSyncerResume` scenario: the same
target synced to completion, resuming from the durable state and accumulated
intercept counter left by `c1r1`. -/
def c1r2 : AttemptResult :=
  runAttempt 1024 1024 none (dense (10 * 1024 - 1)) (10 * 1024) c1r1.commits c1r1.counter

/-- Second sync session of the `TestAtomicSyncerResumeNewRootCheckpoint`
scenario (src/unnamed/part_001 lines 209-229): after the first session (same
parameters as `c1r1`: the old target root over heights `1 .. 10*1024-1`, cut
off after `5*1024 - 1` leaves), a fresh syncer targets the new, larger root
over heights `1 .. 20*1024-1` at target height `20*1024`. -/
def c6r2 : AttemptResult :=
  runAttempt 1024 1024 none (dense (20 * 1024 - 1)) (20 * 1024) c1r1.commits c1r1.counter

/-- The ancestor-compatibility relation between two commit-table entries: the
later entry has a strictly larger height and its root's key/value set contains
every leaf of the earlier root (spec section 8, "Monotonic commit table"). -/
def chainRel (c d : Commit) : Prop := c.1 < d.1 ∧ ∀ l ∈ c.2, l ∈ d.2

/-- Well-formedness of the commit-height table: every persisted height is an
exact multiple of the commit interval, and entries are pairwise
ancestor-compatible in order (spec sections 3 and 8). -/
def TableOK (K : Nat) (cs : List Commit) : Prop :=
  (∀ c ∈ cs, c.1 % K = 0) ∧ List.Pairwise chainRel cs

/-- Invariant of an in-flight sync state tying the open trie and the next
commit boundary to the durable table. -/
def StInv (K : Nat) (st : SyncSt) : Prop :=
  (∀ c ∈ st.commits, c.1 % K = 0) ∧
  List.Pairwise chainRel st.commits ∧
  (∀ c ∈ st.commits, c.1 < st.nextCommit) ∧
  (∀ c ∈ st.commits, ∀ l ∈ c.2, l ∈ st.revLeaves) ∧
  st.nextCommit % K = 0

/-- The full successful sync of the `TestAtomicSyncer` shape used by the
commit-height assertions of `testAtomicSyncer` (src/unnamed/part_001 lines
125-130): one leaf per height `1 .. 10*1024`, synced to target height
`10*1024` without interruption. -/
def c3run : AttemptResult :=
  runAttempt 1024 1024 none (dense (10 * 1024)) (10 * 1024) [] 0

def attemptWrap (K T : Nat) (tgt : List Leaf) (res : SyncSt × Bool) : AttemptResult :=
  if res.2 then
    if res.1.revLeaves.reverse = tgt then
      ⟨acceptAt K T res.1.revLeaves.reverse res.1.commits, res.1.counter,
        res.1.fetched, true⟩
    else ⟨res.1.commits, res.1.counter, res.1.fetched, false⟩
  else ⟨res.1.commits, res.1.counter, res.1.fetched, false⟩

/-- A concrete 32-byte state key for the storage-partition witnesses. -/
def key32 : List Nat := List.replicate 32 6

/-- A concrete 32-byte coinID for the storage-partition witnesses. -/
def coin32 : List Nat := List.replicate 32 9

/-- A concrete StateDB over empty storage for the storage-partition witness. -/
def sdb0 : StateDB := ⟨⟨fun _ _ => 0, fun _ => false⟩⟩

/-- A concrete well-behaved precompile for the dispatcher witness: gas cost 3,
output byte 7, no error. -/
def pGood : PrecompiledContract := ⟨fun _ => 3, fun _ => (some [7], none)⟩

theorem seg_length : ∀ (m a : Nat), (seg a m).length = m
  | 0, _ => rfl
  | m+1, a => by simp [seg, seg_length m (a+1)]

theorem seg_append : ∀ (m1 m2 a : Nat), seg a (m1 + m2) = seg a m1 ++ seg (a + m1) m2
  | 0, m2, a => by simp [seg]
  | m1+1, m2, a => by
      have h : m1 + 1 + m2 = (m1 + m2) + 1 := by omega
      rw [h]
      show leafAt (a+1) :: seg (a+1) (m1 + m2) = _
      rw [seg_append m1 m2 (a+1)]
      have h2 : a + 1 + m1 = a + (m1 + 1) := by omega
      rw [h2]
      rfl

theorem seg_snoc (a m : Nat) : seg a (m + 1) = seg a m ++ [leafAt (a + m + 1)] := by
  rw [seg_append m 1 a]
  rfl

theorem dense_snoc (n : Nat) : dense (n + 1) = dense n ++ [leafAt (n + 1)] := by
  have := seg_snoc 0 n
  simpa [dense] using this

theorem dense_rev_cons (n : Nat) :
    (dense (n + 1)).reverse = leafAt (n + 1) :: (dense n).reverse := by
  rw [dense_snoc, List.reverse_append]
  rfl

theorem mem_seg_height : ∀ (m a : Nat) (l : Leaf), l ∈ seg a m →
    a < l.height ∧ l.height ≤ a + m
  | 0, a, l, h => by simp [seg] at h
  | m+1, a, l, h => by
      rcases (by simpa [seg] using h : l = leafAt (a + 1) ∨ l ∈ seg (a + 1) m) with h1 | h2
      · subst h1
        simp only [leafAt]
        omega
      · have := mem_seg_height m (a+1) l h2
        omega

theorem seg_take : ∀ (m k a : Nat), (seg a m).take k = seg a (min k m)
  | 0, k, a => by
      rw [Nat.min_zero]
      exact List.take_nil
  | m+1, 0, a => by
      rw [Nat.zero_min]
      rfl
  | m+1, k+1, a => by
      show leafAt (a+1) :: (seg (a+1) m).take k = _
      rw [seg_take m k (a+1)]
      have h : min (k+1) (m+1) = min k m + 1 := by omega
      rw [h]
      rfl

theorem seg_drop : ∀ (m k a : Nat), (seg a m).drop k = seg (a + min k m) (m - k)
  | 0, k, a => by
      have h : (0 : Nat) - k = 0 := by omega
      rw [h, Nat.min_zero]
      show List.drop k [] = []
      exact List.drop_nil
  | m+1, 0, a => by simp
  | m+1, k+1, a => by
      show (seg (a+1) m).drop k = _
      rw [seg_drop m k (a+1)]
      have h1 : a + 1 + min k m = a + min (k+1) (m+1) := by omega
      have h2 : m - k = m + 1 - (k + 1) := by omega
      rw [h1, h2]

theorem seg_filter_all : ∀ (m a s : Nat), s ≤ a →
    (seg a m).filter (fun l => decide (s < l.height)) = seg a m
  | 0, a, s, _ => rfl
  | m+1, a, s, hs => by
      have hd : decide (s < (leafAt (a+1)).height) = true := by
        simp [leafAt]; omega
      show List.filter _ (leafAt (a+1) :: seg (a+1) m) = _
      rw [List.filter_cons, if_pos (by simpa using hd)]
      rw [seg_filter_all m (a+1) s (by omega)]
      rfl

theorem seg_filter : ∀ (m a s : Nat), a ≤ s →
    (seg a m).filter (fun l => decide (s < l.height)) = seg s (a + m - s)
  | 0, a, s, hs => by
      have h0 : a - s = 0 := by omega
      simp [seg, h0]
  | m+1, a, s, hs => by
      rcases Nat.eq_or_lt_of_le hs with he | hlt
      · subst he
        rw [seg_filter_all (m+1) a a (le_refl a)]
        have : a + (m + 1) - a = m + 1 := by omega
        rw [this]
      · have hd : decide (s < (leafAt (a+1)).height) = false := by
          simp [leafAt]; omega
        show List.filter _ (leafAt (a+1) :: seg (a+1) m) = _
        rw [List.filter_cons, if_neg (by simp [leafAt]; omega)]
        rw [seg_filter m (a+1) s (by omega)]
        have : a + 1 + m - s = a + (m + 1) - s := by omega
        rw [this]

theorem dense_filter (n s : Nat) (_hs : s ≤ n) :
    (dense n).filter (fun l => decide (s < l.height)) = seg s (n - s) := by
  have := seg_filter n 0 s (by omega)
  simpa [dense] using this

theorem lastH_cons (c : Commit) (cs : List Commit) (h : cs ≠ []) :
    lastH (c :: cs) = lastH cs := by
  cases cs with
  | nil => exact absurd rfl h
  | cons d ds => rfl

theorem lastRoot_cons (c : Commit) (cs : List Commit) (h : cs ≠ []) :
    lastRoot (c :: cs) = lastRoot cs := by
  cases cs with
  | nil => exact absurd rfl h
  | cons d ds => rfl

theorem lastH_append : ∀ (cs ds : List Commit), ds ≠ [] → lastH (cs ++ ds) = lastH ds
  | [], ds, _ => rfl
  | c :: cs, ds, h => by
      rw [List.cons_append, lastH_cons c (cs ++ ds) (by simp [h]), lastH_append cs ds h]

theorem lastRoot_append : ∀ (cs ds : List Commit), ds ≠ [] → lastRoot (cs ++ ds) = lastRoot ds
  | [], ds, _ => rfl
  | c :: cs, ds, h => by
      rw [List.cons_append, lastRoot_cons c (cs ++ ds) (by simp [h]),
        lastRoot_append cs ds h]

theorem lastH_concat (cs : List Commit) (c : Commit) : lastH (cs ++ [c]) = c.1 := by
  rw [lastH_append cs [c] (by simp)]
  rfl

theorem lastRoot_concat (cs : List Commit) (c : Commit) : lastRoot (cs ++ [c]) = c.2 := by
  rw [lastRoot_append cs [c] (by simp)]
  rfl

theorem tableSeg_ne_nil (K h c : Nat) : tableSeg K h (c + 1) ≠ [] := by
  simp [tableSeg]

theorem tableSeg_lastH : ∀ (c K h : Nat), lastH (tableSeg K h (c + 1)) = h + c * K
  | 0, K, h => by simp [tableSeg, lastH]
  | c+1, K, h => by
      show lastH ((h, dense h) :: tableSeg K (h + K) (c + 1)) = _
      rw [lastH_cons _ _ (tableSeg_ne_nil K (h+K) c), tableSeg_lastH c K (h+K)]
      ring

theorem tableSeg_lastRoot : ∀ (c K h : Nat),
    lastRoot (tableSeg K h (c + 1)) = dense (h + c * K)
  | 0, K, h => by simp [tableSeg, lastRoot]
  | c+1, K, h => by
      show lastRoot ((h, dense h) :: tableSeg K (h + K) (c + 1)) = _
      rw [lastRoot_cons _ _ (tableSeg_ne_nil K (h+K) c), tableSeg_lastRoot c K (h+K)]
      ring_nf

theorem advance_noop (K h : Nat) (fuel : Nat) (st : SyncSt) (hh : h ≤ st.nextCommit) :
    advanceCommits K h fuel st = st := by
  cases fuel with
  | zero => rfl
  | succ f => simp [advanceCommits, Nat.not_lt.2 hh]

theorem advance_once (K h f : Nat) (rev fet : List Leaf) (nc : Nat) (cs : List Commit)
    (ctr : Nat) (h1 : nc < h) (h2 : h ≤ nc + K) :
    advanceCommits K h (f + 1) ⟨rev, fet, nc, cs, ctr⟩ =
      ⟨rev, fet, nc + K, cs ++ [(nc, rev.reverse)], ctr⟩ := by
  show (if nc < h then _ else _) = _
  rw [if_pos h1]
  exact advance_noop K h f _ h2

theorem processLeaf_noop (K : Nat) (l : Leaf) (rev fet : List Leaf) (nc : Nat)
    (cs : List Commit) (ctr : Nat) (hh : l.height ≤ nc) :
    processLeaf K ⟨rev, fet, nc, cs, ctr⟩ l = ⟨l :: rev, fet, nc, cs, ctr⟩ := by
  unfold processLeaf
  rw [advance_noop K l.height (l.height + 1) _ hh]

theorem processLeaf_commit (K : Nat) (l : Leaf) (rev fet : List Leaf) (nc : Nat)
    (cs : List Commit) (ctr : Nat) (h1 : nc < l.height) (h2 : l.height ≤ nc + K) :
    processLeaf K ⟨rev, fet, nc, cs, ctr⟩ l =
      ⟨l :: rev, fet, nc + K, cs ++ [(nc, rev.reverse)], ctr⟩ := by
  unfold processLeaf
  rw [advance_once K l.height l.height rev fet nc cs ctr h1 h2]

theorem processList_small (K : Nat) : ∀ (m h : Nat) (fet : List Leaf) (nc : Nat)
    (cs : List Commit) (ctr : Nat), h + m ≤ nc →
    processList K ⟨(dense h).reverse, fet, nc, cs, ctr⟩ (seg h m) =
      ⟨(dense (h + m)).reverse, fet, nc, cs, ctr⟩
  | 0, h, fet, nc, cs, ctr, _ => rfl
  | m+1, h, fet, nc, cs, ctr, hle => by
      show processList K (processLeaf K _ (leafAt (h+1))) (seg (h+1) m) = _
      rw [processLeaf_noop K (leafAt (h+1)) _ fet nc cs ctr (by simp [leafAt]; omega)]
      rw [show leafAt (h+1) :: (dense h).reverse = (dense (h+1)).reverse from
        (dense_rev_cons h).symm]
      rw [processList_small K m (h+1) fet nc cs ctr (by omega)]
      have : h + 1 + m = h + (m + 1) := by omega
      rw [this]

theorem processList_boundary (K : Nat) (hK : 1 ≤ K) (m h : Nat) (fet : List Leaf)
    (cs : List Commit) (ctr : Nat) (hm1 : 1 ≤ m) (hmK : m ≤ K) :
    processList K ⟨(dense h).reverse, fet, h, cs, ctr⟩ (seg h m) =
      ⟨(dense (h + m)).reverse, fet, h + K, cs ++ [(h, dense h)], ctr⟩ := by
  obtain ⟨m', rfl⟩ : ∃ m', m = m' + 1 := ⟨m - 1, by omega⟩
  show processList K (processLeaf K _ (leafAt (h+1))) (seg (h+1) m') = _
  rw [processLeaf_commit K (leafAt (h+1)) _ fet h cs ctr (by simp [leafAt])
    (by simp [leafAt]; omega)]
  rw [List.reverse_reverse]
  rw [show leafAt (h+1) :: (dense h).reverse = (dense (h+1)).reverse from
    (dense_rev_cons h).symm]
  rw [processList_small K m' (h+1) fet (h + K) (cs ++ [(h, dense h)]) ctr (by omega)]
  have : h + 1 + m' = h + (m' + 1) := by omega
  rw [this]

theorem seg_cons (h m : Nat) : seg h (m + 1) = leafAt (h + 1) :: seg (h + 1) m := rfl

theorem runBatches_nil (K : Nat) (cutoff : Option Nat) (reqSize f : Nat) (st : SyncSt) :
    runBatches K cutoff reqSize (f + 1) [] st = (st, true) := rfl

theorem rb_steady (K : Nat) (hK : 1 ≤ K) :
    ∀ (m : Nat), ∀ (h : Nat) (fet : List Leaf) (cs : List Commit) (ctr fuel : Nat),
    1 ≤ m → m + 1 ≤ fuel →
    runBatches K none K fuel (seg h m) ⟨(dense h).reverse, fet, h, cs, ctr⟩ =
      (⟨(dense (h + m)).reverse, fet ++ seg h m, h + K + ((m - 1) / K) * K,
        cs ++ tableSeg K h ((m - 1) / K + 1), ctr + m⟩, true) := by
  intro m
  induction m using Nat.strong_induction_on with
  | _ m IH =>
    intro h fet cs ctr fuel hm1 hfuel
    obtain ⟨m', rfl⟩ : ∃ m', m = m' + 1 := ⟨m - 1, by omega⟩
    obtain ⟨f, rfl⟩ : ∃ f, fuel = f + 1 := ⟨fuel - 1, by omega⟩
    conv_lhs => rw [seg_cons]
    rw [runBatches]
    rw [show (leafAt (h+1) :: seg (h+1) m') = seg h (m' + 1) from rfl]
    rw [seg_take, seg_length, seg_drop]
    simp only [interceptOk, if_true]
    rcases le_or_lt (m' + 1) K with hle | hlt
    · -- single (possibly final) batch: the whole remaining segment fits
      have hmin : min K (m' + 1) = m' + 1 := by omega
      rw [hmin]
      have hsub : m' + 1 - K = 0 := by omega
      rw [hsub]
      have hup : processList K
          ⟨(dense h).reverse, fet ++ seg h (m' + 1), h, cs, ctr + (m' + 1)⟩
          (seg h (m' + 1)) =
          ⟨(dense (h + (m' + 1))).reverse, fet ++ seg h (m' + 1), h + K,
            cs ++ [(h, dense h)], ctr + (m' + 1)⟩ :=
        processList_boundary K hK (m' + 1) h _ _ _ (by omega) hle
      rw [hup]
      obtain ⟨f', rfl⟩ : ∃ f', f = f' + 1 := ⟨f - 1, by omega⟩
      rw [show seg (h + (m' + 1)) 0 = ([] : List Leaf) from rfl, runBatches_nil]
      have hdiv : (m' + 1 - 1) / K = 0 := Nat.div_eq_of_lt (by omega)
      rw [hdiv]
      simp [tableSeg]
    · -- a full batch, then recurse
      have hmin : min K (m' + 1) = K := by omega
      rw [hmin]
      have hup : processList K
          ⟨(dense h).reverse, fet ++ seg h K, h, cs, ctr + K⟩ (seg h K) =
          ⟨(dense (h + K)).reverse, fet ++ seg h K, h + K,
            cs ++ [(h, dense h)], ctr + K⟩ :=
        processList_boundary K hK K h _ _ _ hK (le_refl K)
      rw [hup]
      have hrec := IH (m' + 1 - K) (by omega) (h + K) (fet ++ seg h K)
        (cs ++ [(h, dense h)]) (ctr + K) f (by omega) (by omega)
      rw [hrec]
      have e1 : h + K + (m' + 1 - K) = h + (m' + 1) := by omega
      have e2 : (fet ++ seg h K) ++ seg (h + K) (m' + 1 - K) = fet ++ seg h (m' + 1) := by
        rw [List.append_assoc]
        have : seg h K ++ seg (h + K) (m' + 1 - K) = seg h (K + (m' + 1 - K)) :=
          (seg_append K (m' + 1 - K) h).symm
        rw [this]
        have : K + (m' + 1 - K) = m' + 1 := by omega
        rw [this]
      have e3 : (m' + 1 - K - 1) / K + 1 = (m' + 1 - 1) / K := by
        have h1 : m' + 1 - 1 = (m' + 1 - K - 1) + K := by omega
        rw [h1, Nat.add_div_right _ (by omega)]
      have e5 : ctr + K + (m' + 1 - K) = ctr + (m' + 1) := by omega
      rw [e1, e2, e5, ← e3]
      have e6 : h + K + ((m' + 1 - K - 1) / K + 1) * K =
          h + K + K + (m' + 1 - K - 1) / K * K := by ring
      rw [e6]
      have e7 : cs ++ [(h, dense h)] ++ tableSeg K (h + K) ((m' + 1 - K - 1) / K + 1) =
          cs ++ tableSeg K h ((m' + 1 - K - 1) / K + 1 + 1) := by
        rw [List.append_assoc]
        rfl
      rw [e7]

theorem rb_entry (K : Nat) (hK : 1 ≤ K) (m h : Nat) (fet : List Leaf) (cs : List Commit)
    (ctr fuel : Nat) (hm : K < m) (hfuel : m + 1 ≤ fuel) :
    runBatches K none K fuel (seg h m) ⟨(dense h).reverse, fet, h + K, cs, ctr⟩ =
      (⟨(dense (h + m)).reverse, fet ++ seg h m, h + K + K + ((m - K - 1) / K) * K,
        cs ++ tableSeg K (h + K) ((m - K - 1) / K + 1), ctr + m⟩, true) := by
  obtain ⟨m', rfl⟩ : ∃ m', m = m' + 1 := ⟨m - 1, by omega⟩
  obtain ⟨f, rfl⟩ : ∃ f, fuel = f + 1 := ⟨fuel - 1, by omega⟩
  conv_lhs => rw [seg_cons]
  rw [runBatches]
  rw [show (leafAt (h+1) :: seg (h+1) m') = seg h (m' + 1) from rfl]
  rw [seg_take, seg_length, seg_drop]
  simp only [interceptOk, if_true]
  have hmin : min K (m' + 1) = K := by omega
  rw [hmin]
  have hup : processList K
      ⟨(dense h).reverse, fet ++ seg h K, h + K, cs, ctr + K⟩ (seg h K) =
      ⟨(dense (h + K)).reverse, fet ++ seg h K, h + K, cs, ctr + K⟩ :=
    processList_small K K h _ _ _ _ (le_refl (h + K))
  rw [hup]
  have hrec := rb_steady K hK (m' + 1 - K) (h + K) (fet ++ seg h K) cs (ctr + K) f
    (by omega) (by omega)
  rw [hrec]
  have e1 : h + K + (m' + 1 - K) = h + (m' + 1) := by omega
  have e2 : (fet ++ seg h K) ++ seg (h + K) (m' + 1 - K) = fet ++ seg h (m' + 1) := by
    rw [List.append_assoc]
    have h3 : seg h K ++ seg (h + K) (m' + 1 - K) = seg h (K + (m' + 1 - K)) :=
      (seg_append K (m' + 1 - K) h).symm
    rw [h3]
    have h4 : K + (m' + 1 - K) = m' + 1 := by omega
    rw [h4]
  have e5 : ctr + K + (m' + 1 - K) = ctr + (m' + 1) := by omega
  rw [e1, e2, e5]

theorem rb_fail_now (K : Nat) (hK : 1 ≤ K) (c m h fuel : Nat) (st : SyncSt)
    (hm : K ≤ m) (hc : c < st.counter + K) :
    runBatches K (some c) K (fuel + 1) (seg h m) st = (st, false) := by
  obtain ⟨m', rfl⟩ : ∃ m', m = m' + 1 := ⟨m - 1, by omega⟩
  conv_lhs => rw [seg_cons]
  rw [runBatches]
  rw [show (leafAt (h+1) :: seg (h+1) m') = seg h (m' + 1) from rfl]
  rw [seg_take, seg_length]
  have hmin : min K (m' + 1) = K := by omega
  rw [hmin]
  have hok : interceptOk (some c) st.counter K = false := by
    simp [interceptOk]
    omega
  simp [hok]

theorem rb_cutoff_steady (K : Nat) (hK : 1 ≤ K) :
    ∀ (j : Nat), ∀ (c h m : Nat) (fet : List Leaf) (cs : List Commit) (ctr fuel : Nat),
    ctr + j * K ≤ c → c < ctr + (j + 1) * K → (j + 1) * K ≤ m → j + 1 ≤ fuel →
    runBatches K (some c) K fuel (seg h m) ⟨(dense h).reverse, fet, h, cs, ctr⟩ =
      (⟨(dense (h + j * K)).reverse, fet ++ seg h (j * K), h + j * K,
        cs ++ tableSeg K h j, ctr + j * K⟩, false) := by
  intro j
  induction j with
  | zero =>
    intro c h m fet cs ctr fuel hpass hfail hm hfuel
    obtain ⟨f, rfl⟩ : ∃ f, fuel = f + 1 := ⟨fuel - 1, by omega⟩
    rw [rb_fail_now K hK c m h f _ (by omega) (by simpa using hfail)]
    simp [tableSeg, seg]
  | succ j IH =>
    intro c h m fet cs ctr fuel hpass hfail hm hfuel
    have hx1 : (j + 1) * K = j * K + K := by ring
    have hx2 : (j + 1 + 1) * K = j * K + K + K := by ring
    rw [hx1] at hpass
    rw [hx2] at hfail hm
    obtain ⟨f, rfl⟩ : ∃ f, fuel = f + 1 := ⟨fuel - 1, by omega⟩
    obtain ⟨m', rfl⟩ : ∃ m', m = m' + 1 := ⟨m - 1, by omega⟩
    conv_lhs => rw [seg_cons]
    rw [runBatches]
    rw [show (leafAt (h+1) :: seg (h+1) m') = seg h (m' + 1) from rfl]
    rw [seg_take, seg_length, seg_drop]
    have hmin : min K (m' + 1) = K := by omega
    rw [hmin]
    have hok : interceptOk (some c) ctr K = true := by
      simp [interceptOk]
      omega
    simp only [hok, if_true]
    have hup : processList K
        ⟨(dense h).reverse, fet ++ seg h K, h, cs, ctr + K⟩ (seg h K) =
        ⟨(dense (h + K)).reverse, fet ++ seg h K, h + K,
          cs ++ [(h, dense h)], ctr + K⟩ :=
      processList_boundary K hK K h _ _ _ hK (le_refl K)
    rw [hup]
    have hrec := IH c (h + K) (m' + 1 - K) (fet ++ seg h K) (cs ++ [(h, dense h)])
      (ctr + K) f (by omega) (by rw [hx1]; omega) (by rw [hx1]; omega) (by omega)
    rw [hrec]
    have e1 : h + K + j * K = h + (j + 1) * K := by ring
    have e2 : (fet ++ seg h K) ++ seg (h + K) (j * K) = fet ++ seg h ((j + 1) * K) := by
      rw [List.append_assoc]
      have h3 : seg h K ++ seg (h + K) (j * K) = seg h (K + j * K) :=
        (seg_append K (j * K) h).symm
      rw [h3]
      have h4 : K + j * K = (j + 1) * K := by ring
      rw [h4]
    have e3 : (cs ++ [(h, dense h)]) ++ tableSeg K (h + K) j =
        cs ++ tableSeg K h (j + 1) := by
      rw [List.append_assoc]
      rfl
    have e5 : ctr + K + j * K = ctr + (j + 1) * K := by ring
    rw [e1, e2, e3, e5]

theorem rb_cutoff_entry (K : Nat) (hK : 1 ≤ K) (j c h m : Nat) (fet : List Leaf)
    (cs : List Commit) (ctr fuel : Nat) (hj : 1 ≤ j) (hpass : ctr + j * K ≤ c)
    (hfail : c < ctr + (j + 1) * K) (hm : (j + 1) * K ≤ m) (hfuel : j + 1 ≤ fuel) :
    runBatches K (some c) K fuel (seg h m) ⟨(dense h).reverse, fet, h + K, cs, ctr⟩ =
      (⟨(dense (h + j * K)).reverse, fet ++ seg h (j * K), h + j * K,
        cs ++ tableSeg K (h + K) (j - 1), ctr + j * K⟩, false) := by
  obtain ⟨j', rfl⟩ : ∃ j', j = j' + 1 := ⟨j - 1, by omega⟩
  have hx1 : (j' + 1) * K = j' * K + K := by ring
  have hx2 : (j' + 1 + 1) * K = j' * K + K + K := by ring
  rw [hx1] at hpass
  rw [hx2] at hfail hm
  obtain ⟨f, rfl⟩ : ∃ f, fuel = f + 1 := ⟨fuel - 1, by omega⟩
  obtain ⟨m', rfl⟩ : ∃ m', m = m' + 1 := ⟨m - 1, by omega⟩
  conv_lhs => rw [seg_cons]
  rw [runBatches]
  rw [show (leafAt (h+1) :: seg (h+1) m') = seg h (m' + 1) from rfl]
  rw [seg_take, seg_length, seg_drop]
  have hmin : min K (m' + 1) = K := by omega
  rw [hmin]
  have hok : interceptOk (some c) ctr K = true := by
    simp [interceptOk]
    omega
  simp only [hok, if_true]
  have hup : processList K
      ⟨(dense h).reverse, fet ++ seg h K, h + K, cs, ctr + K⟩ (seg h K) =
      ⟨(dense (h + K)).reverse, fet ++ seg h K, h + K, cs, ctr + K⟩ :=
    processList_small K K h _ _ _ _ (le_refl (h + K))
  rw [hup]
  have hrec := rb_cutoff_steady K hK j' c (h + K) (m' + 1 - K) (fet ++ seg h K) cs
    (ctr + K) f (by omega) (by rw [hx1]; omega) (by rw [hx1]; omega) (by omega)
  rw [hrec]
  have e1 : h + K + j' * K = h + (j' + 1) * K := by ring
  have e2 : (fet ++ seg h K) ++ seg (h + K) (j' * K) = fet ++ seg h ((j' + 1) * K) := by
    rw [List.append_assoc]
    have h3 : seg h K ++ seg (h + K) (j' * K) = seg h (K + j' * K) :=
      (seg_append K (j' * K) h).symm
    rw [h3]
    have h4 : K + j' * K = (j' + 1) * K := by ring
    rw [h4]
  have e5 : ctr + K + j' * K = ctr + (j' + 1) * K := by ring
  rw [e1, e2, e5]
  simp

theorem runAttempt_eq (K reqSize : Nat) (cutoff : Option Nat) (tgt : List Leaf)
    (T : Nat) (cs0 : List Commit) (ctr0 : Nat) :
    runAttempt K reqSize cutoff tgt T cs0 ctr0 =
      (fun res : SyncSt × Bool =>
        if res.2 then
          if res.1.revLeaves.reverse = tgt then
            ⟨acceptAt K T res.1.revLeaves.reverse res.1.commits, res.1.counter,
              res.1.fetched, true⟩
          else ⟨res.1.commits, res.1.counter, res.1.fetched, false⟩
        else ⟨res.1.commits, res.1.counter, res.1.fetched, false⟩)
      (runBatches K cutoff reqSize
        ((tgt.filter (fun l => decide (lastH cs0 < l.height))).length + 1)
        (tgt.filter (fun l => decide (lastH cs0 < l.height)))
        ⟨(lastRoot cs0).reverse, [], lastH cs0 + K, cs0, ctr0⟩) := rfl

theorem runAttempt_success (K : Nat) (hK : 1 ≤ K) (n s T : Nat) (cs0 : List Commit)
    (ctr0 : Nat) (hlh : lastH cs0 = s) (hlr : lastRoot cs0 = dense s) (hsn : K < n - s) :
    runAttempt K K none (dense n) T cs0 ctr0 =
      ⟨acceptAt K T (dense n)
        (cs0 ++ tableSeg K (s + K) ((n - s - K - 1) / K + 1)),
        ctr0 + (n - s), seg s (n - s), true⟩ := by
  rw [runAttempt_eq, hlh, hlr]
  have hsle : s ≤ n := by omega
  rw [dense_filter n s hsle, seg_length]
  have hrb := rb_entry K hK (n - s) s [] cs0 ctr0 ((n - s) + 1) hsn (le_refl _)
  rw [hrb]
  dsimp only
  have hsn2 : s + (n - s) = n := by omega
  rw [hsn2, List.reverse_reverse, if_pos rfl]
  simp

theorem runAttempt_cutoff (K : Nat) (hK : 1 ≤ K) (n c T j : Nat) (hj : 1 ≤ j)
    (hpass : j * K ≤ c) (hfail : c < (j + 1) * K) (hm : (j + 1) * K ≤ n) :
    runAttempt K K (some c) (dense n) T [] 0 =
      ⟨tableSeg K K (j - 1), j * K, seg 0 (j * K), false⟩ := by
  rw [runAttempt_eq]
  rw [show lastH [] = 0 from rfl, show lastRoot ([] : List Commit) = dense 0 from rfl]
  rw [dense_filter n 0 (Nat.zero_le n), seg_length]
  have hn0 : n - 0 = n := by omega
  rw [hn0]
  have hjn : j + 1 ≤ n + 1 := by
    have h1 : j ≤ j * K := Nat.le_mul_of_pos_right j (by omega)
    have h2 : j * K ≤ (j + 1) * K := Nat.mul_le_mul_right K (by omega)
    omega
  have hrb := rb_cutoff_entry K hK j c 0 n [] [] 0 (n + 1) hj
    (by simpa using hpass) (by simpa using hfail) hm hjn
  rw [hrb]
  dsimp only
  simp

theorem c1r1_eq : c1r1 = ⟨tableSeg 1024 1024 3, 4 * 1024, seg 0 (4 * 1024), false⟩ := by
  have h := runAttempt_cutoff 1024 (by norm_num) (10 * 1024 - 1) (5 * 1024 - 1)
    (10 * 1024) 4 (by norm_num) (by norm_num) (by norm_num) (by norm_num)
  unfold c1r1
  rw [h]

theorem c1r1_lastH : lastH c1r1.commits = 3072 := by
  rw [c1r1_eq]
  rfl

theorem c1r1_lastRoot : lastRoot c1r1.commits = dense 3072 := by
  rw [c1r1_eq]
  rfl

/-- C1: with commitInterval = 1024 and a target height of 10×1024, a sync whose
leaf responses are cut off after 5×1024 − 1 leaves fails with the intercepting
counter reporting exactly 4×1024 leaves synced (the trailing partial commit
interval — heights between 3×1024 and 4×1024, already received but not
committed — is discarded), and a subsequent sync of the same target to
completion succeeds with exactly 10×1024 + 1024 − 1 leaves observed on the
intercepting counter accumulated across both attempts
(`TestAtomicSyncerResume`, src/unnamed/part_001 lines 192-207). -/
theorem C1_resume_scenario_counts :
    c1r1.ok = false ∧ c1r1.counter = 4 * 1024 ∧ c1r2.ok = true ∧
      c1r2.counter = 10 * 1024 + 1024 - 1 := by
  have hctr : c1r1.counter = 4 * 1024 := by rw [c1r1_eq]
  have h2 := runAttempt_success 1024 (by norm_num) (10 * 1024 - 1) 3072 (10 * 1024)
    c1r1.commits c1r1.counter c1r1_lastH c1r1_lastRoot (by norm_num)
  refine ⟨by rw [c1r1_eq], hctr, ?_, ?_⟩
  · show c1r2.ok = true
    unfold c1r2
    rw [h2]
  · show c1r2.counter = 10 * 1024 + 1024 - 1
    unfold c1r2
    rw [h2]
    show c1r1.counter + (10 * 1024 - 1 - 3072) = 10 * 1024 + 1024 - 1
    rw [hctr]

theorem c6r2_eq : c6r2 =
    ⟨acceptAt 1024 (20 * 1024) (dense (20 * 1024 - 1))
        (c1r1.commits ++ tableSeg 1024 (3072 + 1024) 16),
      c1r1.counter + (20 * 1024 - 1 - 3072), seg 3072 (20 * 1024 - 1 - 3072), true⟩ := by
  have h2 := runAttempt_success 1024 (by norm_num) (20 * 1024 - 1) 3072 (20 * 1024)
    c1r1.commits c1r1.counter c1r1_lastH c1r1_lastRoot (by norm_num)
  unfold c6r2
  rw [h2]

theorem c6table_lastH : lastH (c1r1.commits ++ tableSeg 1024 (3072 + 1024) 16) < 20 * 1024 := by
  rw [lastH_append _ _ (tableSeg_ne_nil 1024 (3072 + 1024) 15)]
  have h := tableSeg_lastH 15 1024 (3072 + 1024)
  rw [show (15 : Nat) + 1 = 16 from rfl] at h
  rw [h]
  norm_num

theorem c6_acceptAt : acceptAt 1024 (20 * 1024) (dense (20 * 1024 - 1))
    (c1r1.commits ++ tableSeg 1024 (3072 + 1024) 16) =
    (c1r1.commits ++ tableSeg 1024 (3072 + 1024) 16) ++
      [(20 * 1024, dense (20 * 1024 - 1))] := by
  unfold acceptAt
  rw [if_pos ⟨by norm_num, c6table_lastH⟩]

/-- C6: after a session fails partway (the `c1r1` session, interrupted with
only the intervals up to height 3×1024 durably committed), a fresh syncer
started with a new larger target root and target height resumes from the
locally committed state — every leaf it fetches lies above the committed
height 3×1024, and it re-fetches leaves at or below the previous session's
in-flight position 4×1024 — and terminates Succeeded with the local trie
equal to the new target root, registered at the new target height, with no
special-case merge logic (`TestAtomicSyncerResumeNewRootCheckpoint`,
src/unnamed/part_001 lines 209-229). -/
theorem C6_resume_new_target_root :
    c1r1.ok = false ∧ c6r2.ok = true ∧
      (20 * 1024, dense (20 * 1024 - 1)) ∈ c6r2.commits ∧
      c6r2.counter = 20 * 1024 + 1024 - 1 ∧
      (∀ l ∈ c6r2.fetched, 3 * 1024 < l.height) ∧
      (∃ l ∈ c6r2.fetched, l.height ≤ 4 * 1024) := by
  have hctr : c1r1.counter = 4 * 1024 := by rw [c1r1_eq]
  refine ⟨by rw [c1r1_eq], by rw [c6r2_eq], ?_, ?_, ?_, ?_⟩
  · rw [c6r2_eq]
    dsimp only
    rw [c6_acceptAt]
    exact List.mem_append_right _ (List.mem_singleton.2 rfl)
  · rw [c6r2_eq]
    dsimp only
    rw [hctr]
  · intro l hl
    rw [c6r2_eq] at hl
    dsimp only at hl
    have := mem_seg_height _ _ l hl
    omega
  · refine ⟨leafAt 3073, ?_, by norm_num [leafAt]⟩
    rw [c6r2_eq]
    dsimp only
    rw [show (20 * 1024 - 1 - 3072 : Nat) = 17406 + 1 from by norm_num, seg_cons]
    exact List.mem_cons_self _ _

theorem lastH_mem : ∀ (cs : List Commit), cs ≠ [] →
    ∃ c ∈ cs, c.1 = lastH cs ∧ c.2 = lastRoot cs
  | [], h => absurd rfl h
  | [c], _ => ⟨c, List.mem_singleton.2 rfl, rfl, rfl⟩
  | c :: d :: cs, _ => by
      obtain ⟨e, he, he1, he2⟩ := lastH_mem (d :: cs) (by simp)
      exact ⟨e, List.mem_cons_of_mem c he, he1, he2⟩

theorem pairwise_le_lastH : ∀ (cs : List Commit), List.Pairwise chainRel cs →
    ∀ c ∈ cs, c.1 ≤ lastH cs
  | [], _, c, hc => by simp at hc
  | [d], _, c, hc => by
      rw [List.mem_singleton] at hc
      subst hc
      exact le_refl _
  | d :: e :: cs, hp, c, hc => by
      rw [lastH_cons d (e :: cs) (by simp)]
      rcases List.mem_cons.1 hc with h1 | h2
      · subst h1
        obtain ⟨x, hx, hx1, _⟩ := lastH_mem (e :: cs) (by simp)
        have hrel := List.rel_of_pairwise_cons hp hx
        have hlt := hrel.1
        omega
      · exact pairwise_le_lastH (e :: cs) (List.Pairwise.sublist (List.sublist_cons_self d _) hp) c h2

theorem pairwise_subset_lastRoot : ∀ (cs : List Commit), List.Pairwise chainRel cs →
    ∀ c ∈ cs, ∀ l ∈ c.2, l ∈ lastRoot cs
  | [], _, c, hc => by simp at hc
  | [d], _, c, hc => by
      rw [List.mem_singleton] at hc
      subst hc
      exact fun l hl => hl
  | d :: e :: cs, hp, c, hc => by
      rw [lastRoot_cons d (e :: cs) (by simp)]
      rcases List.mem_cons.1 hc with h1 | h2
      · subst h1
        obtain ⟨x, hx, _, hx2⟩ := lastH_mem (e :: cs) (by simp)
        have hrel := List.rel_of_pairwise_cons hp hx
        intro l hl
        rw [← hx2]
        exact hrel.2 l hl
      · exact pairwise_subset_lastRoot (e :: cs)
          (List.Pairwise.sublist (List.sublist_cons_self d _) hp) c h2

theorem pairwise_mem_chain : ∀ (cs : List Commit), List.Pairwise chainRel cs →
    ∀ c1 ∈ cs, ∀ c2 ∈ cs, c1.1 < c2.1 → ∀ l ∈ c1.2, l ∈ c2.2
  | [], _, c1, hc1, _, _, _ => by simp at hc1
  | d :: cs, hp, c1, hc1, c2, hc2, hlt => by
      rcases List.mem_cons.1 hc1 with h1 | h1 <;> rcases List.mem_cons.1 hc2 with h2 | h2
      · subst h1; subst h2; omega
      · subst h1
        exact (List.rel_of_pairwise_cons hp h2).2
      · subst h2
        have := (List.rel_of_pairwise_cons hp h1).1
        omega
      · exact pairwise_mem_chain cs (List.Pairwise.of_cons hp) c1 h1 c2 h2 hlt

theorem lastH_mod (K : Nat) (cs : List Commit) (hm : ∀ c ∈ cs, c.1 % K = 0) :
    lastH cs % K = 0 := by
  rcases eq_or_ne cs [] with h | h
  · subst h
    simp [lastH, Nat.zero_mod]
  · obtain ⟨c, hc, hc1, _⟩ := lastH_mem cs h
    rw [← hc1]
    exact hm c hc

theorem advance_inv (K : Nat) (hK : 1 ≤ K) (h : Nat) : ∀ (fuel : Nat) (st : SyncSt),
    StInv K st → StInv K (advanceCommits K h fuel st)
  | 0, st, hi => hi
  | fuel+1, st, hi => by
      show StInv K (if st.nextCommit < h then _ else st)
      split
      · refine advance_inv K hK h fuel _ ?_
        obtain ⟨h1, h2, h3, h4, h5⟩ := hi
        refine ⟨?_, ?_, ?_, ?_, ?_⟩
        · intro c hc
          rcases List.mem_append.1 hc with hc | hc
          · exact h1 c hc
          · rw [List.mem_singleton.1 hc]
            exact h5
        · rw [List.pairwise_append]
          refine ⟨h2, List.pairwise_singleton _ _, ?_⟩
          intro c hc d hd
          rw [List.mem_singleton.1 hd]
          exact ⟨h3 c hc, fun l hl => (List.mem_reverse).2 (h4 c hc l hl)⟩
        · intro c hc
          rcases List.mem_append.1 hc with hc | hc
          · have := h3 c hc
            simp only
            omega
          · rw [List.mem_singleton.1 hc]
            simp only
            omega
        · intro c hc
          rcases List.mem_append.1 hc with hc | hc
          · exact h4 c hc
          · rw [List.mem_singleton.1 hc]
            intro l hl
            exact (List.mem_reverse).1 hl
        · simp only
          rw [Nat.add_mod, h5, Nat.mod_self]
          simp
      · exact hi

theorem processLeaf_inv (K : Nat) (hK : 1 ≤ K) (st : SyncSt) (l : Leaf)
    (hi : StInv K st) : StInv K (processLeaf K st l) := by
  unfold processLeaf
  obtain ⟨h1, h2, h3, h4, h5⟩ := advance_inv K hK l.height (l.height + 1) st hi
  exact ⟨h1, h2, h3, fun c hc x hx => List.mem_cons_of_mem l (h4 c hc x hx), h5⟩

theorem processList_inv (K : Nat) (hK : 1 ≤ K) : ∀ (ls : List Leaf) (st : SyncSt),
    StInv K st → StInv K (processList K st ls)
  | [], _, hi => hi
  | l :: ls, st, hi =>
      processList_inv K hK ls _ (processLeaf_inv K hK st l hi)

theorem counterFetched_inv (K : Nat) (st : SyncSt) (fet : List Leaf) (ctr : Nat)
    (hi : StInv K st) :
    StInv K { st with counter := ctr, fetched := fet } := hi

theorem runBatches_inv (K : Nat) (hK : 1 ≤ K) (cutoff : Option Nat) (reqSize : Nat) :
    ∀ (fuel : Nat) (pending : List Leaf) (st : SyncSt),
    StInv K st → StInv K (runBatches K cutoff reqSize fuel pending st).1
  | 0, _, st, hi => hi
  | _+1, [], st, hi => hi
  | fuel+1, p :: ps, st, hi => by
      rw [runBatches]
      split
      · exact runBatches_inv K hK cutoff reqSize fuel _ _
          (processList_inv K hK _ _ (counterFetched_inv K st _ _ hi))
      · exact hi

theorem stInv_init (K : Nat) (hK : 1 ≤ K) (cs0 : List Commit) (ctr0 : Nat)
    (ht : TableOK K cs0) :
    StInv K ⟨(lastRoot cs0).reverse, [], lastH cs0 + K, cs0, ctr0⟩ := by
  obtain ⟨h1, h2⟩ := ht
  refine ⟨h1, h2, ?_, ?_, ?_⟩
  · intro c hc
    have := pairwise_le_lastH cs0 h2 c hc
    simp only
    omega
  · intro c hc l hl
    exact (List.mem_reverse).2 (pairwise_subset_lastRoot cs0 h2 c hc l hl)
  · simp only
    rw [Nat.add_mod, lastH_mod K cs0 h1, Nat.mod_self]
    simp

theorem tableSeg_succ (K h c : Nat) :
    tableSeg K h (c + 1) = (h, dense h) :: tableSeg K (h + K) c := rfl

theorem advance_append (K h : Nat) : ∀ (fuel : Nat) (st : SyncSt),
    ∃ t, (advanceCommits K h fuel st).commits = st.commits ++ t
  | 0, st => ⟨[], by simp [advanceCommits]⟩
  | fuel+1, st => by
      rw [advanceCommits]
      split
      · obtain ⟨t, ht⟩ := advance_append K h fuel
          { st with commits := st.commits ++ [(st.nextCommit, st.revLeaves.reverse)],
                    nextCommit := st.nextCommit + K }
        exact ⟨(st.nextCommit, st.revLeaves.reverse) :: t, by
          rw [ht]
          simp⟩
      · exact ⟨[], by simp⟩

theorem processLeaf_append (K : Nat) (st : SyncSt) (l : Leaf) :
    ∃ t, (processLeaf K st l).commits = st.commits ++ t := by
  unfold processLeaf
  obtain ⟨t, ht⟩ := advance_append K l.height (l.height + 1) st
  exact ⟨t, ht⟩

theorem processList_append (K : Nat) : ∀ (ls : List Leaf) (st : SyncSt),
    ∃ t, (processList K st ls).commits = st.commits ++ t
  | [], st => ⟨[], by simp [processList]⟩
  | l :: ls, st => by
      show ∃ t, (processList K (processLeaf K st l) ls).commits = _
      obtain ⟨t1, ht1⟩ := processLeaf_append K st l
      obtain ⟨t2, ht2⟩ := processList_append K ls (processLeaf K st l)
      exact ⟨t1 ++ t2, by rw [ht2, ht1, List.append_assoc]⟩

theorem runBatches_append (K : Nat) (cutoff : Option Nat) (reqSize : Nat) :
    ∀ (fuel : Nat) (pending : List Leaf) (st : SyncSt),
    ∃ t, (runBatches K cutoff reqSize fuel pending st).1.commits = st.commits ++ t
  | 0, _, st => ⟨[], by simp [runBatches]⟩
  | _+1, [], st => ⟨[], by simp [runBatches]⟩
  | fuel+1, p :: ps, st => by
      rw [runBatches]
      split
      · obtain ⟨t1, ht1⟩ := processList_append K ((p :: ps).take reqSize)
          { st with counter := st.counter + ((p :: ps).take reqSize).length,
                    fetched := st.fetched ++ (p :: ps).take reqSize }
        obtain ⟨t2, ht2⟩ := runBatches_append K cutoff reqSize fuel ((p :: ps).drop reqSize)
          (processList K { st with counter := st.counter + ((p :: ps).take reqSize).length,
                                   fetched := st.fetched ++ (p :: ps).take reqSize }
            ((p :: ps).take reqSize))
        exact ⟨t1 ++ t2, by rw [ht2, ht1]; simp [List.append_assoc]⟩
      · exact ⟨[], by simp⟩

theorem acceptAt_append (K T : Nat) (root : List Leaf) (cs : List Commit) :
    ∃ t, acceptAt K T root cs = cs ++ t := by
  unfold acceptAt
  split
  · exact ⟨[(T, root)], rfl⟩
  · exact ⟨[], by simp⟩

theorem acceptAt_tableOK (K T : Nat) (st : SyncSt) (hinv : StInv K st) :
    TableOK K (acceptAt K T st.revLeaves.reverse st.commits) := by
  obtain ⟨h1, h2, h3, h4, h5⟩ := hinv
  unfold acceptAt
  split
  case isTrue hcond =>
    constructor
    · intro c hc
      rcases List.mem_append.1 hc with hc | hc
      · exact h1 c hc
      · rw [List.mem_singleton.1 hc]
        exact hcond.1
    · rw [List.pairwise_append]
      refine ⟨h2, List.pairwise_singleton _ _, ?_⟩
      intro c hc d hd
      rw [List.mem_singleton.1 hd]
      refine ⟨?_, ?_⟩
      · have := pairwise_le_lastH st.commits h2 c hc
        have := hcond.2
        omega
      · intro l hl
        exact (List.mem_reverse).2 (h4 c hc l hl)
  case isFalse => exact ⟨h1, h2⟩

theorem runAttempt_tableOK (K reqSize : Nat) (cutoff : Option Nat) (tgt : List Leaf)
    (T : Nat) (cs0 : List Commit) (ctr0 : Nat) (hK : 1 ≤ K) (ht : TableOK K cs0) :
    TableOK K (runAttempt K reqSize cutoff tgt T cs0 ctr0).commits := by
  rw [runAttempt_eq]
  dsimp only
  have hinv := runBatches_inv K hK cutoff reqSize
    ((tgt.filter (fun l => decide (lastH cs0 < l.height))).length + 1)
    (tgt.filter (fun l => decide (lastH cs0 < l.height)))
    ⟨(lastRoot cs0).reverse, [], lastH cs0 + K, cs0, ctr0⟩
    (stInv_init K hK cs0 ctr0 ht)
  split
  · split
    · exact acceptAt_tableOK K T _ hinv
    · exact ⟨hinv.1, hinv.2.1⟩
  · exact ⟨hinv.1, hinv.2.1⟩

theorem runAttempt_commits_append (K reqSize : Nat) (cutoff : Option Nat)
    (tgt : List Leaf) (T : Nat) (cs0 : List Commit) (ctr0 : Nat) :
    ∃ t, (runAttempt K reqSize cutoff tgt T cs0 ctr0).commits = cs0 ++ t := by
  rw [runAttempt_eq]
  dsimp only
  obtain ⟨t1, ht1⟩ := runBatches_append K cutoff reqSize
    ((tgt.filter (fun l => decide (lastH cs0 < l.height))).length + 1)
    (tgt.filter (fun l => decide (lastH cs0 < l.height)))
    ⟨(lastRoot cs0).reverse, [], lastH cs0 + K, cs0, ctr0⟩
  split
  · split
    · obtain ⟨t2, ht2⟩ := acceptAt_append K T
        (runBatches K cutoff reqSize
          ((tgt.filter (fun l => decide (lastH cs0 < l.height))).length + 1)
          (tgt.filter (fun l => decide (lastH cs0 < l.height)))
          ⟨(lastRoot cs0).reverse, [], lastH cs0 + K, cs0, ctr0⟩).1.revLeaves.reverse
        (runBatches K cutoff reqSize
          ((tgt.filter (fun l => decide (lastH cs0 < l.height))).length + 1)
          (tgt.filter (fun l => decide (lastH cs0 < l.height)))
          ⟨(lastRoot cs0).reverse, [], lastH cs0 + K, cs0, ctr0⟩).1.commits
      exact ⟨t1 ++ t2, by rw [ht2, ht1, List.append_assoc]⟩
    · exact ⟨t1, ht1⟩
  · exact ⟨t1, ht1⟩

theorem rootAt_isSome_of (cs : List Commit) (m : Nat) (c : Commit) (hc : c ∈ cs)
    (hle : c.1 ≤ m) : (rootAt cs m).isSome = true := by
  unfold rootAt
  rw [Option.isSome_map']
  rw [List.getLast?_isSome]
  exact List.ne_nil_of_mem (List.mem_filter.2 ⟨hc, by simpa using hle⟩)

theorem c3run_eq : c3run =
    ⟨acceptAt 1024 (10 * 1024) (dense (10 * 1024))
        ([] ++ tableSeg 1024 (0 + 1024) ((10 * 1024 - 0 - 1024 - 1) / 1024 + 1)),
      0 + (10 * 1024 - 0), seg 0 (10 * 1024 - 0), true⟩ := by
  have h := runAttempt_success 1024 (by norm_num) (10 * 1024) 0 (10 * 1024) [] 0
    rfl rfl (by norm_num)
  unfold c3run
  rw [h]

theorem c3_lastH :
    lastH ([] ++ tableSeg 1024 (0 + 1024) ((10 * 1024 - 0 - 1024 - 1) / 1024 + 1)) <
      10 * 1024 := by
  rw [List.nil_append]
  rw [tableSeg_lastH ((10 * 1024 - 0 - 1024 - 1) / 1024) 1024 (0 + 1024)]
  norm_num

theorem c3run_commits : c3run.commits =
    ([] ++ tableSeg 1024 (0 + 1024) ((10 * 1024 - 0 - 1024 - 1) / 1024 + 1)) ++
      [(10 * 1024, dense (10 * 1024))] := by
  rw [c3run_eq]
  dsimp only
  unfold acceptAt
  rw [if_pos ⟨by norm_num, c3_lastH⟩]

theorem dense_ne_nil (n : Nat) (h : 1 ≤ n) : dense n ≠ [] := by
  intro he
  have hl := seg_length n 0
  rw [dense] at he
  rw [he] at hl
  simp at hl
  omega

theorem c3table_explicit :
    ([] ++ tableSeg 1024 (0 + 1024) ((10 * 1024 - 0 - 1024 - 1) / 1024 + 1)) ++
      [(10 * 1024, dense (10 * 1024))] =
    [(1024, dense 1024), (2048, dense 2048), (3072, dense 3072),
     (4096, dense 4096), (5120, dense 5120), (6144, dense 6144),
     (7168, dense 7168), (8192, dense 8192), (9216, dense 9216),
     (10240, dense 10240)] := rfl

/-- C3: the commit-height table is append-only with persisted heights that are
exact multiples of the commit interval, and for all persisted commit heights
`h1 < h2` the trie rooted at the entry for `h2` contains every key/value leaf
present in the trie rooted at the entry for `h1` (general conjunct, for every
sync session over a well-formed table); and after the successful full sync of
the `TestAtomicSyncer` shape to target height 10×1024, every multiple `m` of
the commit interval 1024 up to the target height has its own persisted commit
entry whose root is the full trie through height `m`, `rootAt` retrieves
exactly that persisted root, and the root is non-zero (non-empty), matching
the per-height `assert.NotZero` of src/unnamed/part_001 lines 125-130. -/
theorem C3_commit_table_invariants :
    (∀ (K reqSize : Nat) (cutoff : Option Nat) (tgt : List Leaf) (T : Nat)
      (cs0 : List Commit) (ctr0 : Nat), 1 ≤ K → TableOK K cs0 →
      TableOK K (runAttempt K reqSize cutoff tgt T cs0 ctr0).commits ∧
      (∃ t, (runAttempt K reqSize cutoff tgt T cs0 ctr0).commits = cs0 ++ t) ∧
      (∀ c1 ∈ (runAttempt K reqSize cutoff tgt T cs0 ctr0).commits,
       ∀ c2 ∈ (runAttempt K reqSize cutoff tgt T cs0 ctr0).commits,
        c1.1 < c2.1 → ∀ l ∈ c1.2, l ∈ c2.2)) ∧
    c3run.ok = true ∧
    (∀ m, 1 ≤ m → m ≤ 10 * 1024 → m % 1024 = 0 →
      (m, dense m) ∈ c3run.commits ∧
      rootAt c3run.commits m = some (dense m) ∧
      dense m ≠ []) := by
  refine ⟨?_, by rw [c3run_eq], ?_⟩
  · intro K reqSize cutoff tgt T cs0 ctr0 hK ht
    have h1 := runAttempt_tableOK K reqSize cutoff tgt T cs0 ctr0 hK ht
    exact ⟨h1, runAttempt_commits_append K reqSize cutoff tgt T cs0 ctr0,
      pairwise_mem_chain _ h1.2⟩
  · intro m h1 h2 h3
    obtain ⟨j, rfl⟩ : ∃ j, m = j * 1024 := ⟨m / 1024, by omega⟩
    have hj1 : 1 ≤ j := by omega
    have hj2 : j ≤ 10 := by omega
    rw [c3run_commits, c3table_explicit]
    interval_cases j
    all_goals exact ⟨by simp, rfl, dense_ne_nil _ (by norm_num)⟩

/-- Witness for C3's general conjunct at a concrete instance: the empty
initial table over interval 2 is well-formed, and one sync session preserves
well-formedness and append-onlyness. -/
theorem C3_commit_table_invariants_witness :
    TableOK 2 (runAttempt 2 1 none [] 0 [] 0).commits ∧
      (∃ t, (runAttempt 2 1 none [] 0 [] 0).commits = [] ++ t) ∧
      (∀ c1 ∈ (runAttempt 2 1 none [] 0 [] 0).commits,
       ∀ c2 ∈ (runAttempt 2 1 none [] 0 [] 0).commits,
        c1.1 < c2.1 → ∀ l ∈ c1.2, l ∈ c2.2) :=
  C3_commit_table_invariants.1 2 1 none [] 0 [] 0 (by norm_num)
    ⟨by simp, List.Pairwise.nil⟩

theorem advance_mono (K h : Nat) : ∀ (fuel : Nat) (st : SyncSt),
    st.nextCommit ≤ (advanceCommits K h fuel st).nextCommit
  | 0, st => le_refl _
  | fuel+1, st => by
      rw [advanceCommits]
      split
      · have := advance_mono K h fuel
          { st with commits := st.commits ++ [(st.nextCommit, st.revLeaves.reverse)],
                    nextCommit := st.nextCommit + K }
        simp only at this
        omega
      · exact le_refl _

theorem advance_ge (K h : Nat) (hK : 1 ≤ K) : ∀ (fuel : Nat) (st : SyncSt),
    h ≤ fuel + st.nextCommit → h ≤ (advanceCommits K h fuel st).nextCommit
  | 0, st, hf => by simpa using hf
  | fuel+1, st, hf => by
      rw [advanceCommits]
      split
      · refine advance_ge K h hK fuel _ ?_
        simp only
        omega
      · omega

theorem advance_I1 (K h : Nat) : ∀ (fuel : Nat) (st : SyncSt),
    st.nextCommit = lastH st.commits + K →
    (advanceCommits K h fuel st).nextCommit = lastH (advanceCommits K h fuel st).commits + K
  | 0, _, hi => hi
  | fuel+1, st, hi => by
      rw [advanceCommits]
      split
      · refine advance_I1 K h fuel _ ?_
        simp only
        rw [lastH_concat]
      · exact hi

theorem advance_fetched (K h : Nat) : ∀ (fuel : Nat) (st : SyncSt),
    (advanceCommits K h fuel st).fetched = st.fetched
  | 0, _ => rfl
  | fuel+1, st => by
      rw [advanceCommits]
      split
      · rw [advance_fetched K h fuel]
      · rfl

theorem processLeaf_mono (K : Nat) (st : SyncSt) (l : Leaf) :
    st.nextCommit ≤ (processLeaf K st l).nextCommit := by
  unfold processLeaf
  exact advance_mono K l.height (l.height + 1) st

theorem processLeaf_ge (K : Nat) (hK : 1 ≤ K) (st : SyncSt) (l : Leaf) :
    l.height ≤ (processLeaf K st l).nextCommit := by
  unfold processLeaf
  exact advance_ge K l.height hK (l.height + 1) st (by omega)

theorem processLeaf_I1 (K : Nat) (st : SyncSt) (l : Leaf)
    (hi : st.nextCommit = lastH st.commits + K) :
    (processLeaf K st l).nextCommit = lastH (processLeaf K st l).commits + K := by
  unfold processLeaf
  exact advance_I1 K l.height (l.height + 1) st hi

theorem processLeaf_fetched (K : Nat) (st : SyncSt) (l : Leaf) :
    (processLeaf K st l).fetched = st.fetched := by
  unfold processLeaf
  exact advance_fetched K l.height (l.height + 1) st

theorem processList_mono (K : Nat) : ∀ (ls : List Leaf) (st : SyncSt),
    st.nextCommit ≤ (processList K st ls).nextCommit
  | [], _ => le_refl _
  | l :: ls, st =>
      le_trans (processLeaf_mono K st l) (processList_mono K ls (processLeaf K st l))

theorem processList_ge (K : Nat) (hK : 1 ≤ K) : ∀ (ls : List Leaf) (st : SyncSt),
    ∀ l ∈ ls, l.height ≤ (processList K st ls).nextCommit
  | [], _, l, hl => by simp at hl
  | x :: ls, st, l, hl => by
      rcases List.mem_cons.1 hl with h | h
      · subst h
        exact le_trans (processLeaf_ge K hK st l) (processList_mono K ls _)
      · exact processList_ge K hK ls _ l h

theorem processList_I1 (K : Nat) : ∀ (ls : List Leaf) (st : SyncSt),
    st.nextCommit = lastH st.commits + K →
    (processList K st ls).nextCommit = lastH (processList K st ls).commits + K
  | [], _, hi => hi
  | l :: ls, st, hi => processList_I1 K ls _ (processLeaf_I1 K st l hi)

theorem processList_fetched (K : Nat) : ∀ (ls : List Leaf) (st : SyncSt),
    (processList K st ls).fetched = st.fetched
  | [], _ => rfl
  | l :: ls, st => by
      show (processList K (processLeaf K st l) ls).fetched = _
      rw [processList_fetched K ls, processLeaf_fetched]

theorem rb_I1 (K : Nat) (cutoff : Option Nat) (reqSize : Nat) :
    ∀ (fuel : Nat) (pending : List Leaf) (st : SyncSt),
    st.nextCommit = lastH st.commits + K →
    (runBatches K cutoff reqSize fuel pending st).1.nextCommit =
      lastH (runBatches K cutoff reqSize fuel pending st).1.commits + K
  | 0, _, st, hi => hi
  | _+1, [], st, hi => hi
  | fuel+1, p :: ps, st, hi => by
      rw [runBatches]
      split
      · exact rb_I1 K cutoff reqSize fuel _ _ (processList_I1 K _ _ hi)
      · exact hi

theorem rb_fetchBound (K : Nat) (hK : 1 ≤ K) (cutoff : Option Nat) (reqSize : Nat) :
    ∀ (fuel : Nat) (pending : List Leaf) (st : SyncSt),
    (∀ l ∈ st.fetched, l.height ≤ st.nextCommit) →
    ∀ l ∈ (runBatches K cutoff reqSize fuel pending st).1.fetched,
      l.height ≤ (runBatches K cutoff reqSize fuel pending st).1.nextCommit
  | 0, _, st, hb, l, hl => hb l hl
  | _+1, [], st, hb, l, hl => hb l hl
  | fuel+1, p :: ps, st, hb, l, hl => by
      rw [runBatches] at hl ⊢
      revert hl
      split
      · intro hl
        refine rb_fetchBound K hK cutoff reqSize fuel _ _ ?_ l hl
        intro x hx
        rw [processList_fetched K _ _] at hx
        simp only at hx
        rcases List.mem_append.1 hx with h | h
        · exact le_trans (hb x h) (processList_mono K ((p :: ps).take reqSize)
            { st with counter := st.counter + ((p :: ps).take reqSize).length,
                      fetched := st.fetched ++ (p :: ps).take reqSize })
        · exact processList_ge K hK _ _ x h
      · intro hl
        exact hb l hl

theorem rb_fetched_take (K : Nat) (cutoff : Option Nat) (reqSize : Nat) :
    ∀ (fuel : Nat) (pending : List Leaf) (st : SyncSt),
    ∃ n, (runBatches K cutoff reqSize fuel pending st).1.fetched =
      st.fetched ++ pending.take n
  | 0, pending, st => ⟨0, by simp [runBatches]⟩
  | _+1, [], st => ⟨0, by simp [runBatches]⟩
  | fuel+1, p :: ps, st => by
      rw [runBatches]
      split
      · obtain ⟨n, hn⟩ := rb_fetched_take K cutoff reqSize fuel ((p :: ps).drop reqSize)
          (processList K { st with counter := st.counter + ((p :: ps).take reqSize).length,
                                   fetched := st.fetched ++ (p :: ps).take reqSize }
            ((p :: ps).take reqSize))
        refine ⟨reqSize + n, ?_⟩
        rw [hn, processList_fetched]
        simp only
        rw [List.append_assoc, ← List.take_add]
      · exact ⟨0, by simp⟩

theorem acceptAt_lastH_ge (K T : Nat) (root : List Leaf) (cs : List Commit) :
    lastH cs ≤ lastH (acceptAt K T root cs) := by
  unfold acceptAt
  split
  case isTrue hcond =>
    rw [lastH_concat]
    have := hcond.2
    omega
  case isFalse => exact le_refl _

theorem runAttempt_fetched_take (K reqSize : Nat) (cutoff : Option Nat)
    (tgt : List Leaf) (T : Nat) (cs0 : List Commit) (ctr0 : Nat) :
    ∃ n, (runAttempt K reqSize cutoff tgt T cs0 ctr0).fetched =
      (tgt.filter (fun l => decide (lastH cs0 < l.height))).take n := by
  rw [runAttempt_eq]
  dsimp only
  obtain ⟨n, hn⟩ := rb_fetched_take K cutoff reqSize
    ((tgt.filter (fun l => decide (lastH cs0 < l.height))).length + 1)
    (tgt.filter (fun l => decide (lastH cs0 < l.height)))
    ⟨(lastRoot cs0).reverse, [], lastH cs0 + K, cs0, ctr0⟩
  rw [List.nil_append] at hn
  split
  · split
    · exact ⟨n, hn⟩
    · exact ⟨n, hn⟩
  · exact ⟨n, hn⟩

theorem runAttempt_fetched_above (K reqSize : Nat) (cutoff : Option Nat)
    (tgt : List Leaf) (T : Nat) (cs0 : List Commit) (ctr0 : Nat) :
    ∀ l ∈ (runAttempt K reqSize cutoff tgt T cs0 ctr0).fetched,
      lastH cs0 < l.height := by
  obtain ⟨n, hn⟩ := runAttempt_fetched_take K reqSize cutoff tgt T cs0 ctr0
  intro l hl
  rw [hn] at hl
  have h2 := List.mem_of_mem_take hl
  have h3 := (List.mem_filter.1 h2).2
  exact of_decide_eq_true h3

theorem runAttempt_wrap_eq (K reqSize : Nat) (cutoff : Option Nat) (tgt : List Leaf)
    (T : Nat) (cs0 : List Commit) (ctr0 : Nat) :
    runAttempt K reqSize cutoff tgt T cs0 ctr0 =
      attemptWrap K T tgt
        (runBatches K cutoff reqSize
          ((tgt.filter (fun l => decide (lastH cs0 < l.height))).length + 1)
          (tgt.filter (fun l => decide (lastH cs0 < l.height)))
          ⟨(lastRoot cs0).reverse, [], lastH cs0 + K, cs0, ctr0⟩) := rfl

theorem attemptWrap_fetched (K T : Nat) (tgt : List Leaf) (res : SyncSt × Bool) :
    (attemptWrap K T tgt res).fetched = res.1.fetched := by
  unfold attemptWrap
  split
  · split
    · rfl
    · rfl
  · rfl

theorem attemptWrap_lastH_ge (K T : Nat) (tgt : List Leaf) (res : SyncSt × Bool) :
    lastH res.1.commits ≤ lastH (attemptWrap K T tgt res).commits := by
  unfold attemptWrap
  split
  · split
    · exact acceptAt_lastH_ge K T _ _
    · exact le_refl _
  · exact le_refl _

theorem rb_bound_total (K : Nat) (hK : 1 ≤ K) (cutoff : Option Nat) (reqSize : Nat)
    (fuel : Nat) (pending : List Leaf) (st : SyncSt)
    (hfb : ∀ l ∈ st.fetched, l.height ≤ st.nextCommit)
    (hi : st.nextCommit = lastH st.commits + K) :
    ∀ l ∈ (runBatches K cutoff reqSize fuel pending st).1.fetched,
      l.height ≤ lastH (runBatches K cutoff reqSize fuel pending st).1.commits + K := by
  intro l hl
  have h1 := rb_fetchBound K hK cutoff reqSize fuel pending st hfb l hl
  have h2 := rb_I1 K cutoff reqSize fuel pending st hi
  omega

theorem runAttempt_fetched_bound (K reqSize : Nat) (cutoff : Option Nat)
    (tgt : List Leaf) (T : Nat) (cs0 : List Commit) (ctr0 : Nat) (hK : 1 ≤ K) :
    ∀ l ∈ (runAttempt K reqSize cutoff tgt T cs0 ctr0).fetched,
      l.height ≤ lastH (runAttempt K reqSize cutoff tgt T cs0 ctr0).commits + K := by
  rw [runAttempt_wrap_eq]
  intro l hl
  rw [attemptWrap_fetched] at hl
  refine le_trans (rb_bound_total K hK cutoff reqSize _ _ _ (by simp) rfl l hl) ?_
  exact Nat.add_le_add_right (attemptWrap_lastH_ge K T tgt _) K

theorem count_interval (L : List Leaf) (a k : Nat)
    (hnd : (L.map Leaf.height).Nodup)
    (hb : ∀ l ∈ L, a < l.height ∧ l.height ≤ a + k) : L.length ≤ k := by
  classical
  have h1 : (L.map Leaf.height).toFinset.card = (L.map Leaf.height).length :=
    List.toFinset_card_of_nodup hnd
  have h3 : (L.map Leaf.height).toFinset ⊆ Finset.Ioc a (a + k) := by
    intro x hx
    rw [List.mem_toFinset] at hx
    obtain ⟨l, hl, rfl⟩ := List.mem_map.1 hx
    obtain ⟨hlo, hhi⟩ := hb l hl
    exact Finset.mem_Ioc.2 ⟨hlo, hhi⟩
  have h4 := Finset.card_le_card h3
  rw [Nat.card_Ioc] at h4
  have h5 : (L.map Leaf.height).length = L.length := List.length_map _ _
  omega

/-- C2: for every sync session interrupted at an arbitrary leaf count (the
first session, run from an empty table with an arbitrary intercept cutoff), a
fresh session resumes from the last durably committed commit-height boundary,
discarding all progress inside the trailing uncommitted interval: every leaf
fetched on resume lies strictly above the committed boundary, and when the new
target's leaves carry pairwise-distinct heights the number of leaves
re-fetched on resume (fetched by both sessions) never exceeds one full
commitInterval's worth of entries. -/
theorem C2_resume_refetch_bound (K reqSize c th th' : Nat) (tgt tgt' : List Leaf)
    (hK : 1 ≤ K) (hnd : (tgt'.map Leaf.height).Nodup) :
    (∀ l ∈ (runAttempt K reqSize none tgt' th'
        (runAttempt K reqSize (some c) tgt th [] 0).commits
        (runAttempt K reqSize (some c) tgt th [] 0).counter).fetched,
      lastH (runAttempt K reqSize (some c) tgt th [] 0).commits < l.height) ∧
    ((runAttempt K reqSize none tgt' th'
        (runAttempt K reqSize (some c) tgt th [] 0).commits
        (runAttempt K reqSize (some c) tgt th [] 0).counter).fetched.filter
      (fun l => decide (l ∈ (runAttempt K reqSize (some c) tgt th [] 0).fetched))).length
      ≤ K := by
  constructor
  · exact runAttempt_fetched_above K reqSize none tgt' th' _ _
  · apply count_interval _ (lastH (runAttempt K reqSize (some c) tgt th [] 0).commits) K
    · obtain ⟨n, hn⟩ := runAttempt_fetched_take K reqSize none tgt' th'
        (runAttempt K reqSize (some c) tgt th [] 0).commits
        (runAttempt K reqSize (some c) tgt th [] 0).counter
      have hsub : ((runAttempt K reqSize none tgt' th'
          (runAttempt K reqSize (some c) tgt th [] 0).commits
          (runAttempt K reqSize (some c) tgt th [] 0).counter).fetched.filter
          (fun l => decide (l ∈ (runAttempt K reqSize (some c) tgt th [] 0).fetched))).Sublist
          tgt' := by
        refine List.Sublist.trans (List.filter_sublist _) ?_
        rw [hn]
        exact List.Sublist.trans (List.take_sublist _ _) (List.filter_sublist _)
      exact List.Nodup.sublist (List.Sublist.map Leaf.height hsub) hnd
    · intro l hl
      have h1 := List.mem_filter.1 hl
      have h2 : l ∈ (runAttempt K reqSize (some c) tgt th [] 0).fetched :=
        of_decide_eq_true h1.2
      constructor
      · exact runAttempt_fetched_above K reqSize none tgt' th' _ _ l h1.1
      · exact runAttempt_fetched_bound K reqSize (some c) tgt th [] 0 hK l h2

/-- Witness for C2 at a concrete instance: interval 4, request size 2, first
session over heights 1..11 cut off after 7 leaves, second session over the
same target run to completion. -/
theorem C2_resume_refetch_bound_witness :
    (∀ l ∈ (runAttempt 4 2 none (dense 11) 12
        (runAttempt 4 2 (some 7) (dense 11) 12 [] 0).commits
        (runAttempt 4 2 (some 7) (dense 11) 12 [] 0).counter).fetched,
      lastH (runAttempt 4 2 (some 7) (dense 11) 12 [] 0).commits < l.height) ∧
    ((runAttempt 4 2 none (dense 11) 12
        (runAttempt 4 2 (some 7) (dense 11) 12 [] 0).commits
        (runAttempt 4 2 (some 7) (dense 11) 12 [] 0).counter).fetched.filter
      (fun l => decide (l ∈ (runAttempt 4 2 (some 7) (dense 11) 12 [] 0).fetched))).length
      ≤ 4 :=
  C2_resume_refetch_bound 4 2 7 12 12 (dense 11) (dense 11) (by norm_num) (by decide)

theorem applyLoop_true_cursor (w : Nat → Bool) (o : Nat → Nat) :
    ∀ (f : Nat) (s s' : ApplierState), applyLoop w o f s = (s', true) →
      s'.cursor = s.cursor + f
  | 0, s, s', h => by
      have h1 : s = s' := congrArg Prod.fst h
      rw [← h1]
      omega
  | f+1, s, s', h => by
      rw [applyLoop] at h
      split at h
      · have := applyLoop_true_cursor w o f _ s' h
        simp only at this
        omega
      · simp at h

/-- C4: for every height, once `applyUpTo` of that height has completed
successfully, calling `applyUpTo` of the same height again performs no
additional ledger mutation: it returns the same state unchanged, so
application to the shared-memory ledger is exactly-once per height across
repeated calls (spec section 8, "Apply exactly-once";
`TestAtomicSyncerWithApply`, src/unnamed/part_001 lines 179-190). -/
theorem C4_applyUpTo_idempotent (w : Nat → Bool) (o : Nat → Nat) (s : ApplierState)
    (t : Nat) (s' : ApplierState) (h : applyUpTo w o s t = (s', true)) :
    applyUpTo w o s' t = (s', true) := by
  unfold applyUpTo at h ⊢
  have hc := applyLoop_true_cursor w o (t - s.cursor) s s' h
  have h0 : t - s'.cursor = 0 := by omega
  rw [h0]
  rfl

/-- Witness for C4: applying heights 1..3 succeeds, and a repeated
`applyUpTo` of the same height leaves the state unchanged. -/
theorem C4_applyUpTo_idempotent_witness :
    applyUpTo (fun _ => true) (fun h => h) ⟨3, [(1, 1), (2, 2), (3, 3)]⟩ 3 =
      (⟨3, [(1, 1), (2, 2), (3, 3)]⟩, true) :=
  C4_applyUpTo_idempotent (fun _ => true) (fun h => h) ⟨0, []⟩ 3
    ⟨3, [(1, 1), (2, 2), (3, 3)]⟩ (by decide)

/-- C5 counterexample: `markCursor` sets the cursor to its argument without
regard to the current value, so a `markCursor` operation can strictly decrease
the cursor — the claim that the cursor is monotonically non-decreasing over
every sequence of markCursor/applyUpTo operations is false as stated. -/
theorem C5_markCursor_decreases :
    (markCursor ⟨1, []⟩ 0).cursor < (⟨1, []⟩ : ApplierState).cursor := by decide

theorem applyLoop_char (w : Nat → Bool) (o : Nat → Nat) :
    ∀ (f : Nat) (s : ApplierState),
      s.cursor ≤ (applyLoop w o f s).1.cursor ∧
      (applyLoop w o f s).1.ledger = s.ledger ++
        (List.range' (s.cursor + 1) ((applyLoop w o f s).1.cursor - s.cursor)).map
          (fun h => (h, o h)) ∧
      ((applyLoop w o f s).2 = false →
        (applyLoop w o f s).1.cursor < s.cursor + f ∧
        w ((applyLoop w o f s).1.cursor + 1) = false)
  | 0, s => by
      refine ⟨le_refl _, ?_, ?_⟩
      · show s.ledger = s.ledger ++ (List.range' (s.cursor + 1) (s.cursor - s.cursor)).map _
        rw [Nat.sub_self]
        simp
      · intro hf
        simp [applyLoop] at hf
  | f+1, s => by
      rw [applyLoop]
      split
      case isTrue hw =>
        obtain ⟨ih1, ih2, ih3⟩ := applyLoop_char w o f
          ⟨s.cursor + 1, s.ledger ++ [(s.cursor + 1, o (s.cursor + 1))]⟩
        simp only at ih1 ih2 ih3
        refine ⟨by omega, ?_, ?_⟩
        · rw [ih2]
          rw [List.append_assoc]
          have e1 : (applyLoop w o f
              ⟨s.cursor + 1, s.ledger ++ [(s.cursor + 1, o (s.cursor + 1))]⟩).1.cursor -
              s.cursor =
              ((applyLoop w o f
                ⟨s.cursor + 1, s.ledger ++ [(s.cursor + 1, o (s.cursor + 1))]⟩).1.cursor -
                (s.cursor + 1)) + 1 := by omega
          rw [e1]
          rw [show ∀ (a k : Nat), List.range' a (k + 1) = a :: List.range' (a + 1) k
            from fun a k => rfl]
          rfl
        · intro hf
          obtain ⟨h1, h2⟩ := ih3 hf
          exact ⟨by omega, h2⟩
      case isFalse hw =>
        refine ⟨le_refl _, ?_, ?_⟩
        · show s.ledger = s.ledger ++ (List.range' (s.cursor + 1) (s.cursor - s.cursor)).map _
          rw [Nat.sub_self]
          simp
        · intro _
          refine ⟨by dsimp only; omega, ?_⟩
          simpa using hw

/-- C5 (amended): `markCursor` sets the cursor to exactly its argument (it is
used only to seed the cursor and may move it arbitrarily); over `applyUpTo`
the cursor is monotonically non-decreasing; operations are applied to the
ledger exactly for the consecutive heights `cursor+1, cursor+2, ...` up to the
final cursor, so height h+1 is applied only when the cursor equals h; and if a
ledger write fails, `applyUpTo` stops short of the target with the cursor left
at the last successfully applied height and the write of the next height the
one that failed, so a retry of `applyUpTo` continues from there. -/
theorem C5_apply_cursor_characterization (w : Nat → Bool) (o : Nat → Nat)
    (s : ApplierState) (t : Nat) :
    (∀ h, (markCursor s h).cursor = h) ∧
    s.cursor ≤ (applyUpTo w o s t).1.cursor ∧
    (applyUpTo w o s t).1.ledger = s.ledger ++
      (List.range' (s.cursor + 1) ((applyUpTo w o s t).1.cursor - s.cursor)).map
        (fun h => (h, o h)) ∧
    ((applyUpTo w o s t).2 = false →
      (applyUpTo w o s t).1.cursor < t ∧
      w ((applyUpTo w o s t).1.cursor + 1) = false) := by
  unfold applyUpTo
  obtain ⟨h1, h2, h3⟩ := applyLoop_char w o (t - s.cursor) s
  refine ⟨fun h => rfl, h1, h2, fun hf => ⟨?_, (h3 hf).2⟩⟩
  have := (h3 hf).1
  omega

/-- Witness for C5's amended claim: with writes failing above height 2, the
applier stops at cursor 2 short of target 5, and the failed write is that of
height 3. -/
theorem C5_apply_cursor_characterization_witness :
    (applyUpTo (fun h => decide (h ≤ 2)) (fun h => h) ⟨0, []⟩ 5).1.cursor < 5 ∧
      (fun h => decide (h ≤ 2))
        ((applyUpTo (fun h => decide (h ≤ 2)) (fun h => h) ⟨0, []⟩ 5).1.cursor + 1) =
        false :=
  (C5_apply_cursor_characterization (fun h => decide (h ≤ 2)) (fun h => h)
    ⟨0, []⟩ 5).2.2.2 (by decide)

set_option maxRecDepth 4000 in
theorem byteBitFacts : ∀ b, b < 256 →
    (b &&& 0xfe) &&& 0xfe = b &&& 0xfe ∧
    (b ||| 1) ||| 1 = b ||| 1 ∧
    (b &&& 0xfe) % 2 = 0 ∧
    (b ||| 1) % 2 = 1 ∧
    (b &&& 0xfe) / 2 = b / 2 ∧
    (b ||| 1) / 2 = b / 2 ∧
    b &&& 0xfe < 256 ∧ b ||| 1 < 256 := by decide

theorem normalize_ne (key coinID : List Nat) (hk : Bytes32 key)
    (hc : Bytes32 coinID) : NormalizeStateKey key ≠ NormalizeCoinID coinID := by
  obtain ⟨hkl, hkb⟩ := hk
  obtain ⟨hcl, hcb⟩ := hc
  cases key with
  | nil => simp at hkl
  | cons b r =>
    cases coinID with
    | nil => simp at hcl
    | cons b' r' =>
      have hb : b < 256 := hkb b (List.mem_cons_self b r)
      have hb' : b' < 256 := hcb b' (List.mem_cons_self b' r')
      have f1 := byteBitFacts b hb
      have f2 := byteBitFacts b' hb'
      simp only [NormalizeStateKey, NormalizeCoinID, ne_eq, List.cons.injEq, not_and]
      rintro hhead -
      have p1 : (b &&& 0xfe) % 2 = 0 := f1.2.2.1
      have p2 : (b' ||| 1) % 2 = 1 := f2.2.2.2.1
      omega

theorem setMultiCoin_storage (g : GethStateDB) (addr : Nat) :
    (g.setMultiCoin addr).storage = g.storage := rfl

theorem multiCoin_if_storage (g : GethStateDB) (c : Prop) [Decidable c] (addr : Nat) :
    (if c then g else g.setMultiCoin addr).storage = g.storage := by
  by_cases h : c
  · rw [if_pos h]
  · rw [if_neg h]
    rfl

/-- C7: normal state storage and multicoin storage are partitioned by the
reserved low bit of the first key byte: for every 32-byte state key and
coinID the normalized state slot and the normalized coin slot are distinct,
`SetState` never disturbs any multicoin balance, and `AddBalanceMultiCoin` /
`SubBalanceMultiCoin` never disturb any normal state slot. -/
theorem C7_multicoin_partition (s : StateDB) (a a' : Nat)
    (key coinID : List Nat) (v amt : Nat)
    (hk : Bytes32 key) (hc : Bytes32 coinID) :
    NormalizeStateKey key ≠ NormalizeCoinID coinID ∧
    (s.SetState a' key v).GetBalanceMultiCoin a coinID
      = s.GetBalanceMultiCoin a coinID ∧
    (s.AddBalanceMultiCoin a' coinID amt).GetState a key = s.GetState a key ∧
    (s.SubBalanceMultiCoin a' coinID amt).GetState a key = s.GetState a key := by
  have hne := normalize_ne key coinID hk hc
  refine ⟨hne, ?_, ?_, ?_⟩
  · simp only [StateDB.SetState, StateDB.GetBalanceMultiCoin,
      GethStateDB.getStateRaw, GethStateDB.setStateRaw]
    rw [if_neg]
    rintro ⟨-, h2⟩
    exact hne h2.symm
  · by_cases hz : amt = 0
    · rw [StateDB.AddBalanceMultiCoin, if_pos hz]
    · rw [StateDB.AddBalanceMultiCoin, if_neg hz]
      simp only [StateDB.GetState, GethStateDB.getStateRaw, GethStateDB.setStateRaw]
      rw [if_neg, multiCoin_if_storage]
      rintro ⟨-, h2⟩
      exact hne h2
  · by_cases hz : amt = 0
    · rw [StateDB.SubBalanceMultiCoin, if_pos hz]
    · rw [StateDB.SubBalanceMultiCoin, if_neg hz]
      simp only [StateDB.GetState, GethStateDB.getStateRaw, GethStateDB.setStateRaw]
      rw [if_neg, multiCoin_if_storage]
      rintro ⟨-, h2⟩
      exact hne h2

theorem C7_multicoin_partition_witness :
    NormalizeStateKey key32 ≠ NormalizeCoinID coin32 ∧
    (sdb0.SetState 2 key32 5).GetBalanceMultiCoin 1 coin32
      = sdb0.GetBalanceMultiCoin 1 coin32 ∧
    (sdb0.AddBalanceMultiCoin 2 coin32 3).GetState 1 key32
      = sdb0.GetState 1 key32 ∧
    (sdb0.SubBalanceMultiCoin 2 coin32 3).GetState 1 key32
      = sdb0.GetState 1 key32 :=
  C7_multicoin_partition sdb0 1 2 key32 coin32 5 3
    (show Bytes32 key32 from ⟨by decide, by decide⟩)
    (show Bytes32 coin32 from ⟨by decide, by decide⟩)

/-- C8 counterexample: a precompile whose `Run` itself reports out-of-gas with
nil output and whose `RequiredGas` is 0 makes `RunPrecompiledContract` return
`(nil, 0, ErrOutOfGas)` even though the supplied gas is not below the required
gas, so the dispatcher does not return that triple exactly when
suppliedGas < RequiredGas. -/
theorem C8_oog_not_exact :
    RunPrecompiledContract oogContract [] 0 = (none, 0, some VMError.ErrOutOfGas) ∧
    ¬ 0 < oogContract.RequiredGas [] :=
  ⟨rfl, by decide⟩

/-- C8 (amended): if suppliedGas < RequiredGas(input), the dispatcher returns
`(nil, 0, ErrOutOfGas)` without running the contract; otherwise it returns
`Run(input)`'s output and error together with suppliedGas − RequiredGas(input)
remaining gas (the `(nil, 0, ErrOutOfGas)` shape can also arise from the
second branch, as `C8_oog_not_exact` shows, so the claim's "exactly when" is
an overstatement). -/
theorem C8_run_precompile_gas (p : PrecompiledContract) (input : List Nat) (g : Nat) :
    (g < p.RequiredGas input →
      RunPrecompiledContract p input g = (none, 0, some VMError.ErrOutOfGas)) ∧
    (p.RequiredGas input ≤ g →
      RunPrecompiledContract p input g
        = ((p.Run input).1, g - p.RequiredGas input, (p.Run input).2)) := by
  constructor
  · intro h
    rw [RunPrecompiledContract]
    simp only [if_pos h]
  · intro h
    rw [RunPrecompiledContract]
    simp only [if_neg (Nat.not_lt.mpr h)]

theorem C8_run_precompile_gas_witness :
    (2 < pGood.RequiredGas [] →
      RunPrecompiledContract pGood [] 2 = (none, 0, some VMError.ErrOutOfGas)) ∧
    (pGood.RequiredGas [] ≤ 5 →
      RunPrecompiledContract pGood [] 5
        = ((pGood.Run []).1, 5 - pGood.RequiredGas [], (pGood.Run []).2)) :=
  ⟨(C8_run_precompile_gas pGood [] 2).1, (C8_run_precompile_gas pGood [] 5).2⟩

/-- C9: `NormalizeStateKey` and `NormalizeCoinID` are idempotent on 32-byte
keys and each touches only bit 0 of byte 0 — the length, the tail bytes and
every higher bit of the first byte are unchanged — and since the one forces
that bit to 0 while the other forces it to 1, their images are disjoint. -/
theorem C9_normalize_bit_discipline (key coinID : List Nat)
    (hk : Bytes32 key) (hc : Bytes32 coinID) :
    NormalizeStateKey (NormalizeStateKey key) = NormalizeStateKey key ∧
    NormalizeCoinID (NormalizeCoinID coinID) = NormalizeCoinID coinID ∧
    (NormalizeStateKey key).length = key.length ∧
    (NormalizeCoinID coinID).length = coinID.length ∧
    (NormalizeStateKey key).tail = key.tail ∧
    (NormalizeCoinID coinID).tail = coinID.tail ∧
    (∀ j, ((NormalizeStateKey key).headD 0).testBit (j + 1)
        = (key.headD 0).testBit (j + 1)) ∧
    (∀ j, ((NormalizeCoinID coinID).headD 0).testBit (j + 1)
        = (coinID.headD 0).testBit (j + 1)) ∧
    ((NormalizeStateKey key).headD 0) % 2 = 0 ∧
    ((NormalizeCoinID coinID).headD 0) % 2 = 1 ∧
    NormalizeStateKey key ≠ NormalizeCoinID coinID := by
  have hne := normalize_ne key coinID hk hc
  obtain ⟨hkl, hkb⟩ := hk
  obtain ⟨hcl, hcb⟩ := hc
  cases key with
  | nil => simp at hkl
  | cons b r =>
    cases coinID with
    | nil => simp at hcl
    | cons b' r' =>
      have hb : b < 256 := hkb b (List.mem_cons_self b r)
      have hb' : b' < 256 := hcb b' (List.mem_cons_self b' r')
      have f1 := byteBitFacts b hb
      have f2 := byteBitFacts b' hb'
      refine ⟨?_, ?_, rfl, rfl, rfl, rfl, ?_, ?_, ?_, ?_, hne⟩
      · simp only [NormalizeStateKey, List.cons.injEq]
        exact ⟨f1.1, trivial⟩
      · simp only [NormalizeCoinID, List.cons.injEq]
        exact ⟨f2.2.1, trivial⟩
      · intro j
        simp only [NormalizeStateKey, List.headD_cons]
        rw [← Nat.testBit_div_two, f1.2.2.2.2.1, Nat.testBit_div_two]
      · intro j
        simp only [NormalizeCoinID, List.headD_cons]
        rw [← Nat.testBit_div_two, f2.2.2.2.2.2.1, Nat.testBit_div_two]
      · simp only [NormalizeStateKey, List.headD_cons]
        exact f1.2.2.1
      · simp only [NormalizeCoinID, List.headD_cons]
        exact f2.2.2.2.1

theorem C9_normalize_bit_discipline_witness :
    NormalizeStateKey (NormalizeStateKey key32) = NormalizeStateKey key32 ∧
    NormalizeCoinID (NormalizeCoinID coin32) = NormalizeCoinID coin32 ∧
    (NormalizeStateKey key32).length = key32.length ∧
    (NormalizeCoinID coin32).length = coin32.length ∧
    (NormalizeStateKey key32).tail = key32.tail ∧
    (NormalizeCoinID coin32).tail = coin32.tail ∧
    (∀ j, ((NormalizeStateKey key32).headD 0).testBit (j + 1)
        = (key32.headD 0).testBit (j + 1)) ∧
    (∀ j, ((NormalizeCoinID coin32).headD 0).testBit (j + 1)
        = (coin32.headD 0).testBit (j + 1)) ∧
    ((NormalizeStateKey key32).headD 0) % 2 = 0 ∧
    ((NormalizeCoinID coin32).headD 0) % 2 = 1 ∧
    NormalizeStateKey key32 ≠ NormalizeCoinID coin32 :=
  C9_normalize_bit_discipline key32 coin32
    (show Bytes32 key32 from ⟨by decide, by decide⟩)
    (show Bytes32 coin32 from ⟨by decide, by decide⟩)

/-- C10: the RulesExtra predicate helpers tolerate a nil receiver (modelled as
`none`): `PredicatersExist`, `PredicaterExists` and `IsPrecompileEnabled` all
return false for every address instead of dereferencing the receiver. -/
theorem C10_nil_receiver_safe :
    PredicatersExist none = false ∧
    ∀ addr : Nat, PredicaterExists none addr = false ∧
      IsPrecompileEnabled none addr = false :=
  ⟨rfl, fun _ => ⟨rfl, rfl⟩⟩
